import Mathlib

/-!
Position parsing and engine-line aggregation of the chess GUI.

A shallow embedding of `ChessBoardWidget::SetPosition`, `MainWindow::SetPosition`,
`MainWindow::SetNumLines`, `MainWindow::OnDepthInfoAvailable` and
`MainWindow::UpdateLineInfo`, followed by the properties proved about them.

Conventions of the embedding:

* a `QString` is the list of its characters;
* `uint8_t` and `uint32_t` values are natural numbers, reduced modulo `2^8` and
  `2^32` at every arithmetic step of the source;
* an index outside a `QStringList`, outside the slot vector or outside the board
  is undefined in the source; the embedding returns `none` there.
-/

namespace chess

/-- The `chess::Colour` enumeration of `chess.hpp`. -/
inductive Colour where
  | WHITE
  | BLACK
  deriving DecidableEq

/-- The `chess::PieceType` enumeration of `chess.hpp`. -/
inductive PieceType where
  | PAWN
  | KNIGHT
  | BISHOP
  | ROOK
  | QUEEN
  | KING
  deriving DecidableEq

/-- Modelled from the spec: the piece classes (`chess::Pawn`, ..., `chess::King`) are
declared outside the available sources; a cell holds a `(PieceType, Colour)` pair. -/
structure Piece where
  type : PieceType
  colour : Colour
  deriving DecidableEq

/-- Modelled from the spec: the board class behind `m_board` is declared outside the
available sources. It is an 8x8 grid indexed by (file, rank), each cell empty or a
piece, exposing `Clear`, `SetPiece(piece, file, rank)` and `PieceAt(file, rank)`. -/
structure Board where
  cells : Fin 8 → Fin 8 → Option Piece

/-- Modelled from the spec: `Clear()` empties every cell. -/
def Board.Clear (_b : Board) : Board :=
  ⟨fun _ _ => none⟩

/-- Modelled from the spec: `PieceAt(file, rank)`, empty outside the grid. -/
def Board.PieceAt (b : Board) (file rank : Nat) : Option Piece :=
  if h : file < 8 ∧ rank < 8 then b.cells ⟨file, h.1⟩ ⟨rank, h.2⟩ else none

/-- Modelled from the spec: `SetPiece(piece, file, rank)` overwrites one cell; file and
rank indices lie in `[0,7]`, an index outside the grid is undefined (`none`). -/
def Board.SetPiece (b : Board) (p : Piece) (file rank : Nat) : Option Board :=
  if h : file < 8 ∧ rank < 8 then
    some ⟨fun f r => if f = ⟨file, h.1⟩ ∧ r = ⟨rank, h.2⟩ then some p else b.cells f r⟩
  else none

/-- The rank `rank` of the board as the list of its eight cells, file 0 first. -/
def Board.row (b : Board) (rank : Nat) : List (Option Piece) :=
  (List.range 8).map (fun f => b.PieceAt f rank)

/-- The board as eight ranks, grid rank 0 first. -/
def Board.grid (b : Board) : List (List (Option Piece)) :=
  (List.range 8).map (fun r => b.row r)

end chess

open chess

/-- A `QString`: the sequence of its characters. -/
abbrev QString := List Char

/-- The character test `QChar::isSpace` of the toolkit: space, the controls U+0009 to
U+000D, U+0085, U+00A0 and the Unicode separators. -/
def QChar.isSpace (c : Char) : Bool :=
  let u := c.toNat
  u == 0x20 || (0x09 ≤ u && u ≤ 0x0d) || u == 0x85 || u == 0xa0 || u == 0x1680 ||
    (0x2000 ≤ u && u ≤ 0x200a) || u == 0x2028 || u == 0x2029 || u == 0x202f ||
    u == 0x205f || u == 0x3000

/-- The conversion `QChar::toLatin1`: the character itself when its code is below 256,
the null character otherwise. -/
def QChar.toLatin1 (c : Char) : Char :=
  if c.toNat < 256 then c else Char.ofNat 0

/-- The conversion `QChar::toLower`, given on the code points whose lower-case form is
an ASCII letter (`A` to `Z` and the Kelvin sign U+212A); every other code point is kept,
which the `switch` of `SetPosition` cannot tell from its true lower-case form, since
neither is one of the six piece letters. -/
def QChar.toLower (c : Char) : Char :=
  if c.toNat = 0x212A then 'k' else c.toLower

/-- The method `QString::trimmed`: white space removed from both ends. -/
def QString.trimmed (s : QString) : QString :=
  ((s.dropWhile QChar.isSpace).reverse.dropWhile QChar.isSpace).reverse

/-- The method `QString::split(sep)` with the default `KeepEmptyParts`: the pieces
between the occurrences of `sep`, empty ones included, so the empty string gives one
empty piece. -/
def QString.split (sep : Char) : QString → List QString
  | [] => [[]]
  | c :: cs =>
    if c = sep then [] :: QString.split sep cs
    else
      match QString.split sep cs with
      | [] => [[c]]
      | p :: ps => (c :: p) :: ps

/-- The value of a string of decimal digits. -/
def QString.digitsValue (s : QString) : Nat :=
  s.foldl (fun acc c => 10 * acc + (c.toNat - 48)) 0

/-- The method `QString::toUInt()` in base 10: surrounding white space and one leading
`+` are accepted, then at least one decimal digit and nothing else; the result is the
value when it fits 32 bits and 0 in every other case. -/
def QString.toUInt (s : QString) : Nat :=
  let t := QString.trimmed s
  let body := match t with
    | '+' :: r => r
    | _ => t
  if body ≠ [] ∧ body.all Char.isDigit = true then
    if QString.digitsValue body < 4294967296 then QString.digitsValue body else 0
  else 0

/-- The static helper `IsUpperCase` of `chessboardwidget.cpp`. -/
def IsUpperCase (ch : Char) : Bool :=
  if (ch ≥ 'A') && (ch ≤ 'Z') then true else false

/-- The static helper `IsNumber` of `chessboardwidget.cpp`. -/
def IsNumber (ch : Char) : Bool :=
  if (ch ≥ '0') && (ch ≤ '9') then true else false

/-- The fields of `ChessBoardWidget` that `SetPosition` and `SetScore` write. -/
structure ChessBoardWidget where
  m_board : Board
  m_playing_colour : Colour
  m_half_moves : Nat
  m_score : Int
  m_is_mate : Bool

namespace ChessBoardWidget

/-- The start half-move arithmetic shared by both `SetPosition` functions:
`2 * (move_number - 1)` in `uint32_t`, incremented when BLACK is to play. -/
def halfMoves (move_number : Nat) (colour : Colour) : Nat :=
  let h := (2 * ((move_number + 4294967295) % 4294967296)) % 4294967296
  if colour = Colour.BLACK then (h + 1) % 4294967296 else h

/-- The body of the inner loop of `SetPosition` for one character `qch` of a rank
description: `i` is the `uint8_t` file counter, `j` the grid rank. -/
def SetPosition.step (j : Nat) (acc : Board × Nat) (qch : Char) : Option (Board × Nat) :=
  let board := acc.1
  let i := acc.2
  let ch := QChar.toLatin1 qch
  if IsNumber ch then
    let num := (ch.toNat - 48) % 256
    some (board, (i + num) % 256)
  else
    let colour := if IsUpperCase ch then Colour.WHITE else Colour.BLACK
    let lc := QChar.toLatin1 (QChar.toLower qch)
    if lc = 'p' then
      (board.SetPiece ⟨PieceType.PAWN, colour⟩ i j).map (fun b => (b, (i + 1) % 256))
    else if lc = 'n' then
      (board.SetPiece ⟨PieceType.KNIGHT, colour⟩ i j).map (fun b => (b, (i + 1) % 256))
    else if lc = 'b' then
      (board.SetPiece ⟨PieceType.BISHOP, colour⟩ i j).map (fun b => (b, (i + 1) % 256))
    else if lc = 'r' then
      (board.SetPiece ⟨PieceType.ROOK, colour⟩ i j).map (fun b => (b, (i + 1) % 256))
    else if lc = 'q' then
      (board.SetPiece ⟨PieceType.QUEEN, colour⟩ i j).map (fun b => (b, (i + 1) % 256))
    else if lc = 'k' then
      (board.SetPiece ⟨PieceType.KING, colour⟩ i j).map (fun b => (b, (i + 1) % 256))
    else
      some (board, (i + 1) % 256)

/-- The inner loop of `SetPosition` over the characters of one rank description,
started with the file counter `i`. -/
def SetPosition.line : Nat → Board × Nat → QString → Option (Board × Nat)
  | _, acc, [] => some acc
  | j, acc, qch :: rest =>
    match SetPosition.step j acc qch with
    | none => none
    | some acc2 => SetPosition.line j acc2 rest

/-- The outer loop of `SetPosition`: grid ranks `j, j+1, ...` (`n` of them), rank `j`
read from `lines[7 - j]` with the file counter reset to 0. -/
def SetPosition.ranks (lines : List QString) : Nat → Nat → Board → Option Board
  | 0, _, board => some board
  | n + 1, j, board =>
    match lines[7 - j]? with
    | none => none
    | some l =>
      match SetPosition.line j (board, 0) l with
      | none => none
      | some acc => SetPosition.ranks lines n (j + 1) acc.1

/-- The function `ChessBoardWidget::SetPosition(fen_str)`; `repaint()` is left out. -/
def SetPosition (w : ChessBoardWidget) (fen_str : QString) : Option ChessBoardWidget :=
  let args := QString.split ' ' (QString.trimmed fen_str)
  match args[1]? with
  | none => none
  | some a1 =>
    let colour :=
      if a1 = ['w'] then Colour.WHITE
      else if a1 = ['b'] then Colour.BLACK
      else w.m_playing_colour
    let cleared := w.m_board.Clear
    match args[5]? with
    | none => none
    | some a5 =>
      let move_number := QString.toUInt a5
      let half := halfMoves move_number colour
      match args[0]? with
      | none => none
      | some a0 =>
        let lines := QString.split '/' (QString.trimmed a0)
        match SetPosition.ranks lines 8 0 cleared with
        | none => none
        | some board =>
          some { w with m_board := board, m_playing_colour := colour, m_half_moves := half }

/-- The function `ChessBoardWidget::SetScore(score, mate)`; `repaint()` is left out. -/
def SetScore (w : ChessBoardWidget) (score : Int) (mate : Bool) : ChessBoardWidget :=
  { w with m_score := score, m_is_mate := mate }

/-- The function `ChessBoardWidget::GetPlayingColour()`. -/
def GetPlayingColour (w : ChessBoardWidget) : Colour :=
  w.m_playing_colour

/-- The function `ChessBoardWidget::SetPlayingColour(colour)`. -/
def SetPlayingColour (w : ChessBoardWidget) (colour : Colour) : ChessBoardWidget :=
  { w with m_playing_colour := colour }

end ChessBoardWidget

/-- Modelled from the spec: the constant `chess::STARTPOS_FEN` is declared outside the
available sources; it is the position string of the standard starting position. -/
def chess.STARTPOS_FEN : QString :=
  "rnbqkbnr/pppppppp/8/8/8/8/PPPPPPPP/RNBQKBNR w KQkq - 0 1".toList

/-- The function `ChessBoardWidget::Reset()`. -/
def ChessBoardWidget.Reset (w : ChessBoardWidget) : Option ChessBoardWidget :=
  match w.SetPosition chess.STARTPOS_FEN with
  | none => none
  | some w2 => some { w2 with m_score := 0 }

/-! ## The position notation as the specification words it -/

/-- The piece type named by a letter, whatever its case. -/
def letterType (c : Char) : Option PieceType :=
  if c = 'P' ∨ c = 'p' then some PieceType.PAWN
  else if c = 'N' ∨ c = 'n' then some PieceType.KNIGHT
  else if c = 'B' ∨ c = 'b' then some PieceType.BISHOP
  else if c = 'R' ∨ c = 'r' then some PieceType.ROOK
  else if c = 'Q' ∨ c = 'q' then some PieceType.QUEEN
  else if c = 'K' ∨ c = 'k' then some PieceType.KING
  else none

/-- The piece a letter stands for: upper case is WHITE, lower case is BLACK. -/
def pieceOfLetter (c : Char) : Option Piece :=
  (letterType c).map (fun t => ⟨t, if c.isUpper then Colour.WHITE else Colour.BLACK⟩)

/-- The characters of a rank description: the digits 1 to 8 and the twelve piece
letters. -/
def fenChars : List Char :=
  ['1', '2', '3', '4', '5', '6', '7', '8',
   'P', 'N', 'B', 'R', 'Q', 'K', 'p', 'n', 'b', 'r', 'q', 'k']

/-- The cells a rank description stands for, file 0 first: a digit `d` gives `d` empty
cells, a letter gives one cell holding its piece. -/
def expandRank : QString → List (Option Piece)
  | [] => []
  | c :: cs =>
    if c.isDigit then List.replicate (c.toNat - 48) none ++ expandRank cs
    else pieceOfLetter c :: expandRank cs

/-- The cell at index `n` of a list of cells, empty past its end. -/
def cellAt : List (Option Piece) → Nat → Option Piece
  | [], _ => none
  | x :: _, 0 => x
  | _ :: xs, n + 1 => cellAt xs n

/-- A valid rank description: characters of the notation only, eight files in all. -/
def ValidRank (r : QString) : Prop :=
  (∀ c ∈ r, c ∈ fenChars) ∧ (expandRank r).length = 8

/-- A valid board layout: eight valid rank descriptions separated by `/`. -/
def ValidLayout (layout : QString) : Prop :=
  (QString.split '/' layout).length = 8 ∧ ∀ r ∈ QString.split '/' layout, ValidRank r

/-- The fields of a position string, as `SetPosition` splits it. -/
def positionFields (s : QString) : List QString :=
  QString.split ' ' (QString.trimmed s)

/-- The rank descriptions of a position string, rank 8 first. -/
def layoutRanks (s : QString) : List QString :=
  QString.split '/' (QString.trimmed ((positionFields s).getD 0 []))

/-- A valid six-field position string: six fields, the first a valid layout. -/
def ValidPosition (s : QString) : Prop :=
  (positionFields s).length = 6 ∧ ValidLayout (QString.trimmed ((positionFields s).getD 0 []))

instance (r : QString) : Decidable (ValidRank r) := by
  unfold ValidRank; infer_instance

instance (l : QString) : Decidable (ValidLayout l) := by
  unfold ValidLayout; infer_instance

instance (s : QString) : Decidable (ValidPosition s) := by
  unfold ValidPosition; infer_instance

/-- The standard starting layout, grid rank 0 (rank 1) first. -/
def standardGrid : List (List (Option Piece)) :=
  let back (c : Colour) : List (Option Piece) :=
    [some ⟨PieceType.ROOK, c⟩, some ⟨PieceType.KNIGHT, c⟩, some ⟨PieceType.BISHOP, c⟩,
     some ⟨PieceType.QUEEN, c⟩, some ⟨PieceType.KING, c⟩, some ⟨PieceType.BISHOP, c⟩,
     some ⟨PieceType.KNIGHT, c⟩, some ⟨PieceType.ROOK, c⟩]
  [back Colour.WHITE, List.replicate 8 (some ⟨PieceType.PAWN, Colour.WHITE⟩),
   List.replicate 8 none, List.replicate 8 none, List.replicate 8 none, List.replicate 8 none,
   List.replicate 8 (some ⟨PieceType.PAWN, Colour.BLACK⟩), back Colour.BLACK]

/-- A widget with an empty board, WHITE to play and no score. -/
def ChessBoardWidget.blank : ChessBoardWidget :=
  ⟨⟨fun _ _ => none⟩, Colour.WHITE, 0, 0, false⟩

/-! ## Re-serialization of the board layout, as the specification words it -/

/-- The letter of a piece: the letter of its type, upper case for WHITE. -/
def letterOfPiece (p : Piece) : Char :=
  match p.type, p.colour with
  | PieceType.PAWN, Colour.WHITE => 'P'
  | PieceType.KNIGHT, Colour.WHITE => 'N'
  | PieceType.BISHOP, Colour.WHITE => 'B'
  | PieceType.ROOK, Colour.WHITE => 'R'
  | PieceType.QUEEN, Colour.WHITE => 'Q'
  | PieceType.KING, Colour.WHITE => 'K'
  | PieceType.PAWN, Colour.BLACK => 'p'
  | PieceType.KNIGHT, Colour.BLACK => 'n'
  | PieceType.BISHOP, Colour.BLACK => 'b'
  | PieceType.ROOK, Colour.BLACK => 'r'
  | PieceType.QUEEN, Colour.BLACK => 'q'
  | PieceType.KING, Colour.BLACK => 'k'

/-- The text of a run of `run` empty files: nothing for an empty run, else its digit. -/
def runText (run : Nat) : QString :=
  if run = 0 then [] else [Char.ofNat (48 + run)]

/-- The text of a list of cells preceded by `run` empty files not yet written: runs of
empty files become digits, a piece becomes its letter. -/
def serializeCells : Nat → List (Option Piece) → QString
  | run, [] => runText run
  | run, none :: cs => serializeCells (run + 1) cs
  | run, some p :: cs => runText run ++ letterOfPiece p :: serializeCells 0 cs

/-- The pieces of a list of strings joined by the separator `sep`. -/
def joinWith (sep : Char) : List QString → QString
  | [] => []
  | [p] => p
  | p :: q :: ps => p ++ sep :: joinWith sep (q :: ps)

/-- The layout text of a board: rank 8 first, ranks separated by `/`. -/
def serializeLayout (b : Board) : QString :=
  joinWith '/' ((List.range 8).map (fun k => serializeCells 0 (b.row (7 - k))))

/-- No two digits stand side by side in a rank description. -/
def noAdjacentDigits : QString → Bool
  | c :: d :: rest => !(c.isDigit && d.isDigit) && noAdjacentDigits (d :: rest)
  | _ => true

/-- A layout in canonical form: valid, and every run of empty files is one digit. -/
def CanonicalLayout (layout : QString) : Prop :=
  ValidLayout layout ∧ ∀ r ∈ QString.split '/' layout, noAdjacentDigits r = true

instance (l : QString) : Decidable (CanonicalLayout l) := by
  unfold CanonicalLayout; infer_instance

/-- The first character of a rank description is not a digit (or there is none). -/
def startsWithoutDigit : QString → Bool
  | [] => true
  | c :: _ => !c.isDigit

/-! ## The main window: position, slots of engine lines and their rendering -/

/-- Modelled from the spec: the record `UCIEngine::DepthInfo` is declared outside the
available sources; it carries the 1-based line id (read into a `uint32_t`), the
principal variation, the signed score and the mate flag. -/
structure UCIEngine.DepthInfo where
  line_id : Nat
  pv : List QString
  score : Int
  mate_counter : Bool
  deriving DecidableEq

/-- The value-initialized `DepthInfo` that `resize` fills new slots with. -/
def UCIEngine.DepthInfo.empty : UCIEngine.DepthInfo :=
  ⟨0, [], 0, false⟩

/-- The conversion `QString::number(n)` of an integer, in base 10. -/
def QString.number (n : Int) : QString :=
  if n < 0 then '-' :: Nat.toDigits 10 n.natAbs else Nat.toDigits 10 n.toNat

/-- The fields of `MainWindow` used by the position and line-aggregation code;
`teLines` holds the lines appended to the widget `ui->teLines`, `teMoves` the text of
`ui->teMoves`. The engine process is an external collaborator and is left out. -/
structure MainWindow where
  m_board : ChessBoardWidget
  m_moves_list : List QString
  m_start_half_moves : Nat
  m_depth_infos : List UCIEngine.DepthInfo
  m_num_received_lines : Nat
  m_depth : Nat
  teLines : List QString
  teMoves : QString

namespace MainWindow

/-- The function `MainWindow::SetDepth(depth)`, `depth` a `uint8_t`. -/
def SetDepth (st : MainWindow) (depth : Nat) : MainWindow :=
  { st with m_depth := depth % 256 }

/-- The function `MainWindow::SetNumLines(num_lines)`, `num_lines` a `uint8_t`: the slot
vector is cleared and resized; the calls to the engine are left out. -/
def SetNumLines (st : MainWindow) (num_lines : Nat) : MainWindow :=
  { st with m_depth_infos := List.replicate (num_lines % 256) UCIEngine.DepthInfo.empty }

/-- The function `MainWindow::SetEngineEnabled(enabled)` on the modelled fields: switching
the engine off clears `teLines`; the engine calls and widget visibility are left out. -/
def SetEngineEnabled (st : MainWindow) (enabled : Bool) : MainWindow :=
  if enabled then st else { st with teLines := [] }

/-- The part of `MainWindow::Init()` that writes the modelled fields. -/
def Init (st : MainWindow) : MainWindow :=
  let st1 := { st with m_start_half_moves := 0,
                       m_board := st.m_board.SetPlayingColour Colour.WHITE }
  SetNumLines (SetDepth (SetEngineEnabled st1 false) 20) 1

/-- The function `MainWindow::SetPosition(fen_str)` with its boolean result. -/
def SetPosition (st : MainWindow) (fen_str : QString) : Option (MainWindow × Bool) :=
  if fen_str.isEmpty then some (st, false)
  else
    let args := QString.split ' ' fen_str
    if args.length ≠ 6 then some (st, false)
    else
      match st.m_board.SetPosition fen_str with
      | none => none
      | some board =>
        match args[5]? with
        | none => none
        | some a5 =>
          let move_number := QString.toUInt a5
          some ({ st with
                  m_board := board
                  m_moves_list := []
                  teMoves := []
                  m_start_half_moves :=
                    ChessBoardWidget.halfMoves move_number board.GetPlayingColour }, true)

/-- The inner loop of `UpdateLineInfo` over the principal variation, from ply `i` on:
the labelled moves of `move_str_chain`. -/
def UpdateLineInfo.chain (start_half_moves : Nat) : Nat → List QString → List QString
  | _, [] => []
  | i, mv :: rest =>
    let half_moves := (start_half_moves + i) % 4294967296
    let item :=
      if half_moves % 2 = 0 then
        QString.number (1 + half_moves / 2) ++ ". ".toList ++ mv
      else if i = 0 then
        QString.number (1 + half_moves / 2) ++ "... ".toList ++ mv
      else mv
    item :: UpdateLineInfo.chain start_half_moves (i + 1) rest

/-- The score of a line as `UpdateLineInfo` shows it: negated when BLACK is to play. -/
def UpdateLineInfo.score (colour : Colour) (info : UCIEngine.DepthInfo) : Int :=
  if colour = Colour.BLACK then info.score * (-1) else info.score

/-- The text `UpdateLineInfo` appends to `teLines` for one slot. `GetSignedScore` is
declared outside the available sources and is taken as a parameter. -/
def UpdateLineInfo.text (GetSignedScore : Int → QString) (start_half_moves : Nat)
    (colour : Colour) (info : UCIEngine.DepthInfo) : QString :=
  let move_str_chain := UpdateLineInfo.chain start_half_moves 0 info.pv
  let score := UpdateLineInfo.score colour info
  let score_str :=
    if !info.mate_counter then
      "<b>[".toList ++ GetSignedScore score ++ "]</b>".toList
    else
      let signed_mate_str := if score ≥ 0 then "M".toList else "-M".toList
      "<b>[".toList ++ signed_mate_str ++ QString.number info.score ++ "]</b>".toList
  score_str ++ " ".toList ++ joinWith ' ' move_str_chain ++ "<br>".toList

/-- The outer loop of `UpdateLineInfo`: slots `i, i+1, ...` (`n` of them). -/
def UpdateLineInfo.loop (GetSignedScore : Int → QString) :
    Nat → Nat → MainWindow → Option MainWindow
  | 0, _, st => some st
  | n + 1, i, st =>
    match st.m_depth_infos[i]? with
    | none => none
    | some info =>
      let line := UpdateLineInfo.text GetSignedScore st.m_start_half_moves
        st.m_board.GetPlayingColour info
      let score := UpdateLineInfo.score st.m_board.GetPlayingColour info
      let st1 := { st with teLines := st.teLines ++ [line] }
      let st2 :=
        if i = 0 then { st1 with m_board := st1.m_board.SetScore score info.mate_counter }
        else st1
      UpdateLineInfo.loop GetSignedScore n (i + 1) st2

/-- The function `MainWindow::UpdateLineInfo()`: `teLines` is cleared, then the slots
`0 .. m_num_received_lines - 1` are rendered in index order. -/
def UpdateLineInfo (GetSignedScore : Int → QString) (st : MainWindow) : Option MainWindow :=
  UpdateLineInfo.loop GetSignedScore st.m_num_received_lines 0 { st with teLines := [] }

/-- The function `MainWindow::OnDepthInfoAvailable(info)`; `line_id` and `line_id - 1`
are `uint32_t` values. -/
def OnDepthInfoAvailable (GetSignedScore : Int → QString) (st : MainWindow)
    (info : UCIEngine.DepthInfo) : Option MainWindow :=
  let line_id := info.line_id % 4294967296
  if line_id > st.m_depth_infos.length then some st
  else
    let st1 := { st with m_num_received_lines := line_id }
    let idx := (line_id + 4294967295) % 4294967296
    if idx < st1.m_depth_infos.length then
      UpdateLineInfo GetSignedScore { st1 with m_depth_infos := st1.m_depth_infos.set idx info }
    else none

/-- The updates of a list delivered one after the other. -/
def deliver (GetSignedScore : Int → QString) :
    MainWindow → List UCIEngine.DepthInfo → Option MainWindow
  | st, [] => some st
  | st, info :: rest =>
    match OnDepthInfoAvailable GetSignedScore st info with
    | none => none
    | some st1 => deliver GetSignedScore st1 rest

/-- A main window before `Init`: blank board, no move, no slot. -/
def fresh : MainWindow :=
  ⟨ChessBoardWidget.blank, [], 0, [], 0, 0, [], []⟩

end MainWindow

/-- A sample score formatter standing for `GetSignedScore`: the plain number. -/
def sampleSignedScore (score : Int) : QString :=
  QString.number score

/-- The six orders in which one update for each of three lines can arrive. -/
def arrivalOrders (u1 u2 u3 : UCIEngine.DepthInfo) : List (List UCIEngine.DepthInfo) :=
  [[u1, u2, u3], [u1, u3, u2], [u2, u1, u3], [u2, u3, u1], [u3, u1, u2], [u3, u2, u1]]

/-- The line id of the last update of a list, 0 for the empty list. -/
def lastLineId : List UCIEngine.DepthInfo → Nat
  | [] => 0
  | [u] => u.line_id
  | _ :: v :: rest => lastLineId (v :: rest)

/-- A sample update for line 1. -/
def sampleLine1 : UCIEngine.DepthInfo :=
  ⟨1, ["d2d4".toList], -20, false⟩

/-- A sample update for line 2. -/
def sampleLine2 : UCIEngine.DepthInfo :=
  ⟨2, ["e2e4".toList, "e7e5".toList], 30, false⟩

/-- A sample update for line 3. -/
def sampleLine3 : UCIEngine.DepthInfo :=
  ⟨3, ["c2c4".toList], 5, true⟩

/-- A second sample update for line 1. -/
def sampleLine1b : UCIEngine.DepthInfo :=
  ⟨1, ["g1f3".toList, "d7d5".toList], 12, false⟩

/-- A main window holding a position: the white king on e1, one move played. -/
def MainWindow.sample : MainWindow :=
  { MainWindow.fresh with
    m_board :=
      { ChessBoardWidget.blank with
        m_board := ⟨fun f r => if f = 4 ∧ r = 0 then
          some ⟨PieceType.KING, Colour.WHITE⟩ else none⟩ }
    m_moves_list := ["e2e4".toList]
    teMoves := "1. <b>e2e4</b> ".toList }

/-! ## The labels of a rendered line and runs of the aggregator -/

/-- The score label `score_str` that `UpdateLineInfo` builds for one slot. -/
def MainWindow.UpdateLineInfo.scoreLabel (GetSignedScore : Int → QString) (colour : Colour)
    (info : UCIEngine.DepthInfo) : QString :=
  let score := MainWindow.UpdateLineInfo.score colour info
  if !info.mate_counter then
    "<b>[".toList ++ GetSignedScore score ++ "]</b>".toList
  else
    let signed_mate_str := if score ≥ 0 then "M".toList else "-M".toList
    "<b>[".toList ++ signed_mate_str ++ QString.number info.score ++ "]</b>".toList

/-- The state on which `OnDepthInfoAvailable` calls `UpdateLineInfo`: the state after
`m_num_received_lines = line_id` and `m_depth_infos[line_id - 1] = info`. -/
def MainWindow.OnDepthInfoAvailable.stored (st : MainWindow) (info : UCIEngine.DepthInfo) :
    MainWindow :=
  let line_id := info.line_id % 4294967296
  { st with
    m_num_received_lines := line_id
    m_depth_infos := st.m_depth_infos.set ((line_id + 4294967295) % 4294967296) info }

/-- The two events that write the slots: a call of `SetNumLines` and an engine update
handed to `OnDepthInfoAvailable`. -/
inductive MainWindow.Action where
  | SetNumLines (num_lines : Nat)
  | OnDepthInfoAvailable (info : UCIEngine.DepthInfo)
  deriving DecidableEq

/-- One event applied to a state. -/
def MainWindow.perform (GetSignedScore : Int → QString) (st : MainWindow) :
    MainWindow.Action → Option MainWindow
  | MainWindow.Action.SetNumLines num_lines => some (st.SetNumLines num_lines)
  | MainWindow.Action.OnDepthInfoAvailable info =>
    MainWindow.OnDepthInfoAvailable GetSignedScore st info

/-- A sequence of events applied to a state, first event first. -/
def MainWindow.run (GetSignedScore : Int → QString) :
    MainWindow → List MainWindow.Action → Option MainWindow
  | st, [] => some st
  | st, a :: rest =>
    match MainWindow.perform GetSignedScore st a with
    | none => none
    | some st1 => MainWindow.run GetSignedScore st1 rest

/-- A sample mate line for line 1: the engine is mated in 3. -/
def sampleMateLine : UCIEngine.DepthInfo :=
  ⟨1, ["e2e4".toList], -3, true⟩

/-- A sample line of two plies for line 1. -/
def sampleTwoPlies : UCIEngine.DepthInfo :=
  ⟨1, ["e7e5".toList, "g1f3".toList], 10, false⟩

/-! ## Lemmas on the board and on the cells of a rank -/

theorem Board.PieceAt_SetPiece (b : Board) (p : Piece) (i j : Nat) (hi : i < 8) (hj : j < 8) :
    ∃ b2, b.SetPiece p i j = some b2 ∧
      ∀ f r, b2.PieceAt f r = if f = i ∧ r = j then some p else b.PieceAt f r := by
  refine ⟨_, by rw [Board.SetPiece, dif_pos ⟨hi, hj⟩], ?_⟩
  intro f r
  unfold Board.PieceAt
  by_cases hfr : f < 8 ∧ r < 8
  · simp only [dif_pos hfr, Fin.mk.injEq]
  · rw [dif_neg hfr, dif_neg hfr]
    have : ¬ (f = i ∧ r = j) := by
      rintro ⟨rfl, rfl⟩
      exact hfr ⟨hi, hj⟩
    rw [if_neg this]

theorem Board.PieceAt_Clear (b : Board) (f r : Nat) : b.Clear.PieceAt f r = none := by
  unfold Board.PieceAt Board.Clear
  split <;> rfl

theorem cellAt_nil (n : Nat) : cellAt [] n = none := by
  cases n <;> rfl

theorem cellAt_replicate_append (d : Nat) (xs : List (Option Piece)) (n : Nat) :
    cellAt (List.replicate d none ++ xs) n = if n < d then none else cellAt xs (n - d) := by
  induction d generalizing n with
  | zero => simp
  | succ d ih =>
    cases n with
    | zero => simp [List.replicate_succ, cellAt]
    | succ n =>
      have h := ih n
      simp only [List.replicate_succ, List.cons_append, cellAt, Nat.add_lt_add_iff_right,
        Nat.add_sub_add_right]
      exact h

/-! ## The loops of `SetPosition` against the notation -/

theorem SetPosition.step_fenChars (c : Char) (hc : c ∈ fenChars) (j : Nat) (b : Board) (i : Nat) :
    ChessBoardWidget.SetPosition.step j (b, i) c =
      if c.isDigit then some (b, (i + (c.toNat - 48)) % 256)
      else match pieceOfLetter c with
        | some p => (b.SetPiece p i j).map (fun b2 => (b2, (i + 1) % 256))
        | none => some (b, (i + 1) % 256) := by
  simp only [fenChars, List.mem_cons, List.mem_singleton, List.not_mem_nil, or_false] at hc
  rcases hc with h | h | h | h | h | h | h | h | h | h | h | h | h | h | h | h | h | h | h | h <;>
    subst h <;> rfl

theorem fenChars_cases (c : Char) (hc : c ∈ fenChars) :
    (c.isDigit = true ∧ 1 ≤ c.toNat - 48 ∧ c.toNat - 48 ≤ 8) ∨
    (c.isDigit = false ∧ ∃ p, pieceOfLetter c = some p) := by
  simp only [fenChars, List.mem_cons, List.mem_singleton, List.not_mem_nil, or_false] at hc
  rcases hc with h | h | h | h | h | h | h | h | h | h | h | h | h | h | h | h | h | h | h | h <;>
    subst h <;> first | (left; decide) | (right; exact ⟨rfl, _, rfl⟩)

theorem SetPosition.line_spec (cs : QString) (j : Nat) (hj : j < 8) (b : Board) (i : Nat)
    (hcs : ∀ c ∈ cs, c ∈ fenChars) (hlen : i + (expandRank cs).length ≤ 8)
    (hb : ∀ f, i ≤ f → b.PieceAt f j = none) :
    ∃ b2, ChessBoardWidget.SetPosition.line j (b, i) cs = some (b2, i + (expandRank cs).length) ∧
      ∀ f r, b2.PieceAt f r =
        if r = j ∧ i ≤ f then cellAt (expandRank cs) (f - i) else b.PieceAt f r := by
  induction cs generalizing b i with
  | nil =>
    refine ⟨b, rfl, ?_⟩
    intro f r
    split
    · rename_i h
      rw [h.1, hb f h.2]; rfl
    · rfl
  | cons c cs ih =>
    have hc := hcs c (List.mem_cons_self _ _)
    have hcs2 : ∀ x ∈ cs, x ∈ fenChars := fun x hx => hcs x (List.mem_cons_of_mem _ hx)
    rw [ChessBoardWidget.SetPosition.line, SetPosition.step_fenChars c hc]
    rcases fenChars_cases c hc with ⟨hd, h1, h8⟩ | ⟨hd, p, hp⟩
    · simp only [expandRank, hd, if_true, List.length_append, List.length_replicate] at hlen ⊢
      have hmod : (i + (c.toNat - 48)) % 256 = i + (c.toNat - 48) := Nat.mod_eq_of_lt (by omega)
      rw [hmod]
      obtain ⟨b2, h2, hb2⟩ := ih b (i + (c.toNat - 48)) hcs2 (by omega)
        (fun f hf => hb f (by omega))
      refine ⟨b2, by rw [h2]; congr 2; omega, ?_⟩
      intro f r
      rw [hb2 f r, cellAt_replicate_append]
      by_cases hr : r = j
      · subst hr
        by_cases hf : i ≤ f
        · by_cases hf2 : i + (c.toNat - 48) ≤ f
          · have : ¬ (f - i < c.toNat - 48) := by omega
            simp only [hf, hf2, and_self, if_true, this, if_false]
            congr 1; omega
          · have : f - i < c.toNat - 48 := by omega
            simp only [hf, hf2, and_false, and_self, if_true, this, if_false]
            exact hb f hf
        · have : ¬ (i + (c.toNat - 48) ≤ f) := by omega
          simp only [hf, this, and_false, if_false]
      · simp only [hr, false_and, if_false]
    · simp only [expandRank, hd, hp, List.length_cons, Bool.false_eq_true, if_false] at hlen ⊢
      have hi : i < 8 := by omega
      obtain ⟨b1, hset, hb1⟩ := Board.PieceAt_SetPiece b p i j hi hj
      have hmod : (i + 1) % 256 = i + 1 := Nat.mod_eq_of_lt (by omega)
      simp only [hset, Option.map_some', hmod, Bool.false_eq_true, if_false]
      obtain ⟨b2, h2, hb2⟩ := ih b1 (i + 1) hcs2 (by omega)
        (fun f hf => by
          rw [hb1 f j, if_neg (by omega)]
          exact hb f (by omega))
      refine ⟨b2, by rw [h2]; congr 2; omega, ?_⟩
      intro f r
      rw [hb2 f r, hb1 f r]
      by_cases hr : r = j
      · subst hr
        by_cases hf : i ≤ f
        · by_cases hf2 : i + 1 ≤ f
          · have hne : ¬ (f = i) := by omega
            obtain ⟨m, hm⟩ : ∃ m, f - i = m + 1 := ⟨f - i - 1, by omega⟩
            simp only [hf, hf2, and_self, if_true, hm, cellAt]
            congr 1; omega
          · have hfi : f = i := by omega
            subst hfi
            simp [cellAt]
        · have : ¬ (i + 1 ≤ f) := by omega
          have hne : ¬ (f = i) := by omega
          simp only [hf, this, hne, and_false, false_and, if_false]
      · simp only [hr, false_and, and_false, if_false]

theorem SetPosition.ranks_spec (lines : List QString) (hlen : lines.length = 8)
    (hvalid : ∀ l ∈ lines, ValidRank l) (n j : Nat) (hnj : j + n = 8) (board : Board)
    (hb : ∀ f r, j ≤ r → board.PieceAt f r = none) :
    ∃ b2, ChessBoardWidget.SetPosition.ranks lines n j board = some b2 ∧
      ∀ f r, b2.PieceAt f r =
        if j ≤ r ∧ r < 8 then cellAt (expandRank (lines.getD (7 - r) [])) f
        else board.PieceAt f r := by
  induction n generalizing j board with
  | zero =>
    refine ⟨board, rfl, ?_⟩
    intro f r
    have : ¬ (j ≤ r ∧ r < 8) := by omega
    rw [if_neg this]
  | succ n ih =>
    have hj : j < 8 := by omega
    have hidx : 7 - j < lines.length := by omega
    have hget : lines[7 - j]? = some (lines.getD (7 - j) []) := by
      rw [List.getD_eq_getElem?_getD, List.getElem?_eq_getElem hidx]; rfl
    have hmem : lines.getD (7 - j) [] ∈ lines := by
      rw [List.getD_eq_getElem?_getD, List.getElem?_eq_getElem hidx]
      exact List.getElem_mem _
    obtain ⟨hchars, hwidth⟩ := hvalid _ hmem
    obtain ⟨b1, h1, hb1⟩ := SetPosition.line_spec (lines.getD (7 - j) []) j hj board 0 hchars
      (by omega) (fun f _ => hb f j (Nat.le_refl j))
    obtain ⟨b2, h2, hb2⟩ := ih (j + 1) (by omega) b1 (fun f r hr => by
      rw [hb1 f r, if_neg (by omega)]
      exact hb f r (by omega))
    refine ⟨b2, ?_, ?_⟩
    · rw [ChessBoardWidget.SetPosition.ranks]
      simp only [hget, h1]
      exact h2
    · intro f r
      rw [hb2 f r, hb1 f r]
      by_cases hr : r = j
      · subst hr
        have e1 : ¬ (r + 1 ≤ r ∧ r < 8) := by omega
        have e2 : r ≤ r ∧ r < 8 := by omega
        simp [hj]
      · by_cases hr2 : j + 1 ≤ r ∧ r < 8
        · have e2 : j ≤ r ∧ r < 8 := by omega
          simp only [hr2, e2, and_self, if_true]
        · have e2 : ¬ (j ≤ r ∧ r < 8) := by omega
          simp only [hr2, e2, hr, false_and, if_false]

theorem SetPosition.layout_spec (lines : List QString) (hlen : lines.length = 8)
    (hvalid : ∀ l ∈ lines, ValidRank l) (b : Board) :
    ∃ b2, ChessBoardWidget.SetPosition.ranks lines 8 0 b.Clear = some b2 ∧
      ∀ f r, r < 8 → b2.PieceAt f r = cellAt (expandRank (lines.getD (7 - r) [])) f := by
  obtain ⟨b2, h2, hb2⟩ := SetPosition.ranks_spec lines hlen hvalid 8 0 rfl b.Clear
    (fun f r _ => Board.PieceAt_Clear b f r)
  refine ⟨b2, h2, ?_⟩
  intro f r hr
  rw [hb2 f r, if_pos ⟨Nat.zero_le r, hr⟩]

theorem getElem?_of_length_six (args : List QString) (h : args.length = 6) :
    ∃ a0 a1 a2 a3 a4 a5, args = [a0, a1, a2, a3, a4, a5] := by
  match args, h with
  | [a0, a1, a2, a3, a4, a5], _ => exact ⟨a0, a1, a2, a3, a4, a5, rfl⟩

/-- The result of `SetPosition` on a valid position string, field by field. -/
theorem SetPosition.valid_spec (w : ChessBoardWidget) (s : QString) (h : ValidPosition s) :
    ∃ w2, ChessBoardWidget.SetPosition w s = some w2 ∧
      (∀ f r, r < 8 → w2.m_board.PieceAt f r = cellAt (expandRank ((layoutRanks s).getD (7 - r) [])) f) ∧
      w2.m_playing_colour =
        (if (positionFields s).getD 1 [] = ['w'] then Colour.WHITE
         else if (positionFields s).getD 1 [] = ['b'] then Colour.BLACK
         else w.m_playing_colour) ∧
      w2.m_half_moves =
        ChessBoardWidget.halfMoves (QString.toUInt ((positionFields s).getD 5 [])) w2.m_playing_colour ∧
      w2.m_score = w.m_score ∧ w2.m_is_mate = w.m_is_mate := by
  obtain ⟨hsix, hlay⟩ := h
  obtain ⟨a0, a1, a2, a3, a4, a5, hargs⟩ := getElem?_of_length_six _ hsix
  unfold layoutRanks
  rw [hargs] at hlay ⊢
  simp only [List.getD_cons_zero] at hlay
  obtain ⟨b2, hb2, hcells⟩ := SetPosition.layout_spec _ hlay.1 hlay.2 w.m_board
  have hrun : ChessBoardWidget.SetPosition w s = some
      { w with
        m_board := b2
        m_playing_colour :=
          if a1 = ['w'] then Colour.WHITE
          else if a1 = ['b'] then Colour.BLACK else w.m_playing_colour
        m_half_moves := ChessBoardWidget.halfMoves (QString.toUInt a5)
          (if a1 = ['w'] then Colour.WHITE
           else if a1 = ['b'] then Colour.BLACK else w.m_playing_colour) } := by
    unfold ChessBoardWidget.SetPosition
    unfold positionFields at hargs
    simp only [hargs, List.getElem?_cons_succ, List.getElem?_cons_zero, hb2]
  refine ⟨_, hrun, ?_, ?_, ?_, rfl, rfl⟩
  · intro f r hr
    simpa using hcells f r hr
  · simp
  · simp

theorem SetPosition.view_eq (w : ChessBoardWidget) (s : QString) :
    (ChessBoardWidget.SetPosition w s).map
        (fun w2 => (w2.m_board.grid, w2.m_playing_colour, w2.m_half_moves)) =
      (ChessBoardWidget.SetPosition
          { ChessBoardWidget.blank with m_playing_colour := w.m_playing_colour } s).map
        (fun w2 => (w2.m_board.grid, w2.m_playing_colour, w2.m_half_moves)) := by
  unfold ChessBoardWidget.SetPosition
  simp only [Board.Clear]
  split
  · rfl
  · split
    · rfl
    · split
      · rfl
      · split <;> simp_all

/-- C1: for every valid six-field position string, `SetPosition` succeeds and the cell
at file `f` of grid rank `7 - k` is the `f`-th cell of the `k`-th rank description
(digits skip that many files, letters give the piece of their type, WHITE for upper
case and BLACK for lower case, all other cells empty); and the starting position
string gives the standard layout, WHITE to move and half-move counter 0. -/
theorem C1_SetPosition_fills_board (w : ChessBoardWidget) (s : QString)
    (h : ValidPosition s) :
    (∃ w2, ChessBoardWidget.SetPosition w s = some w2 ∧
      ∀ k f, k < 8 → f < 8 →
        w2.m_board.PieceAt f (7 - k) = cellAt (expandRank ((layoutRanks s).getD k [])) f) ∧
    (ChessBoardWidget.SetPosition w
        "rnbqkbnr/pppppppp/8/8/8/8/PPPPPPPP/RNBQKBNR w KQkq - 0 1".toList).map
      (fun w2 => (w2.m_board.grid, w2.m_playing_colour, w2.m_half_moves)) =
      some (standardGrid, Colour.WHITE, 0) := by
  constructor
  · obtain ⟨w2, hrun, hcells, _⟩ := SetPosition.valid_spec w s h
    refine ⟨w2, hrun, ?_⟩
    intro k f hk _
    have := hcells f (7 - k) (by omega)
    rw [this]
    congr 3
    omega
  · rw [SetPosition.view_eq]
    cases w.m_playing_colour <;> decide

theorem C1_SetPosition_fills_board_witness :
    ValidPosition "r1bqkbnr/pppp1ppp/2n5/4p3/4P3/5N2/PPPP1PPP/RNBQKB1R w KQkq - 2 3".toList ∧
    ((∃ w2, ChessBoardWidget.SetPosition ChessBoardWidget.blank
        "r1bqkbnr/pppp1ppp/2n5/4p3/4P3/5N2/PPPP1PPP/RNBQKB1R w KQkq - 2 3".toList = some w2 ∧
      ∀ k f, k < 8 → f < 8 →
        w2.m_board.PieceAt f (7 - k) = cellAt (expandRank ((layoutRanks
          "r1bqkbnr/pppp1ppp/2n5/4p3/4P3/5N2/PPPP1PPP/RNBQKB1R w KQkq - 2 3".toList).getD k [])) f) ∧
    (ChessBoardWidget.SetPosition ChessBoardWidget.blank
        "rnbqkbnr/pppppppp/8/8/8/8/PPPPPPPP/RNBQKBNR w KQkq - 0 1".toList).map
      (fun w2 => (w2.m_board.grid, w2.m_playing_colour, w2.m_half_moves)) =
      some (standardGrid, Colour.WHITE, 0)) :=
  ⟨by decide, C1_SetPosition_fills_board ChessBoardWidget.blank _ (by decide)⟩

/-! ## Splitting, joining and trimming -/

theorem QString.split_ne_nil (sep : Char) (l : QString) : QString.split sep l ≠ [] := by
  cases l with
  | nil => simp [QString.split]
  | cons c cs =>
    rw [QString.split]
    split
    · simp
    · split <;> simp

theorem QString.split_of_not_mem (sep : Char) (p : QString) (hp : sep ∉ p) :
    QString.split sep p = [p] := by
  induction p with
  | nil => rfl
  | cons c cs ih =>
    have hc : c ≠ sep := fun h => hp (by simp [h])
    have hcs : sep ∉ cs := fun h => hp (List.mem_cons_of_mem _ h)
    rw [QString.split, if_neg hc, ih hcs]

theorem QString.split_append_sep (sep : Char) (p rest : QString) (hp : sep ∉ p) :
    QString.split sep (p ++ sep :: rest) = p :: QString.split sep rest := by
  induction p with
  | nil => simp [QString.split]
  | cons c cs ih =>
    have hc : c ≠ sep := fun h => hp (by simp [h])
    have hcs : sep ∉ cs := fun h => hp (List.mem_cons_of_mem _ h)
    rw [List.cons_append, QString.split, if_neg hc, ih hcs]

theorem QString.split_joinWith (sep : Char) (ps : List QString) (hne : ps ≠ [])
    (hps : ∀ p ∈ ps, sep ∉ p) : QString.split sep (joinWith sep ps) = ps := by
  induction ps with
  | nil => exact absurd rfl hne
  | cons p qs ih =>
    cases qs with
    | nil =>
      rw [joinWith]
      exact QString.split_of_not_mem sep p (hps p (List.mem_cons_self _ _))
    | cons q qs =>
      rw [joinWith, QString.split_append_sep sep p _ (hps p (List.mem_cons_self _ _)),
        ih (by simp) (fun x hx => hps x (List.mem_cons_of_mem _ hx))]

theorem joinWith_split (sep : Char) (l : QString) : joinWith sep (QString.split sep l) = l := by
  induction l with
  | nil => rfl
  | cons c cs ih =>
    rw [QString.split]
    split
    · rename_i h
      cases hs : QString.split sep cs with
      | nil => exact absurd hs (QString.split_ne_nil sep cs)
      | cons q qs =>
        rw [hs] at ih
        rw [joinWith, ih, h]
        rfl
    · cases hs : QString.split sep cs with
      | nil => exact absurd hs (QString.split_ne_nil sep cs)
      | cons q qs =>
        rw [hs] at ih
        cases qs with
        | nil =>
          simp only [joinWith] at ih ⊢
          rw [ih]
        | cons q2 qs =>
          simp only [joinWith] at ih ⊢
          rw [← ih]
          rfl

theorem mem_of_mem_joinWith (sep : Char) (ps : List QString) (c : Char)
    (hc : c ∈ joinWith sep ps) : c = sep ∨ ∃ p ∈ ps, c ∈ p := by
  induction ps with
  | nil => simp [joinWith] at hc
  | cons p qs ih =>
    cases qs with
    | nil =>
      right
      exact ⟨p, List.mem_cons_self _ _, by simpa [joinWith] using hc⟩
    | cons q qs =>
      rw [joinWith, List.mem_append, List.mem_cons] at hc
      rcases hc with h | h | h
      · exact Or.inr ⟨p, List.mem_cons_self _ _, h⟩
      · exact Or.inl h
      · rcases ih h with h2 | ⟨x, hx, hcx⟩
        · exact Or.inl h2
        · exact Or.inr ⟨x, List.mem_cons_of_mem _ hx, hcx⟩

theorem dropWhile_of_all_false (f : Char → Bool) (l : QString) (h : ∀ c ∈ l, f c = false) :
    l.dropWhile f = l := by
  cases l with
  | nil => rfl
  | cons c cs => rw [List.dropWhile_cons, h c (List.mem_cons_self _ _)]; rfl

theorem QString.trimmed_of_no_space (l : QString) (h : ∀ c ∈ l, QChar.isSpace c = false) :
    QString.trimmed l = l := by
  unfold QString.trimmed
  rw [dropWhile_of_all_false _ l h,
    dropWhile_of_all_false _ l.reverse (fun c hc => h c (List.mem_reverse.mp hc)),
    List.reverse_reverse]

/-! ## Cells and their text -/

theorem pieceOfLetter_letterOfPiece (p : Piece) :
    pieceOfLetter (letterOfPiece p) = some p ∧ (letterOfPiece p).isDigit = false ∧
      letterOfPiece p ∈ fenChars := by
  obtain ⟨t, c⟩ := p
  cases t <;> cases c <;> decide

theorem letterOfPiece_pieceOfLetter (c : Char) (p : Piece) (hc : c ∈ fenChars)
    (hp : pieceOfLetter c = some p) : letterOfPiece p = c := by
  simp only [fenChars, List.mem_cons, List.mem_singleton, List.not_mem_nil, or_false] at hc
  rcases hc with h | h | h | h | h | h | h | h | h | h | h | h | h | h | h | h | h | h | h | h <;>
    subst h <;> first
      | (have hq : (none : Option Piece) = some p := hp
         cases hq)
      | (have hq : some _ = some p := hp
         cases hq
         rfl)

theorem runText_spec (run : Nat) (h1 : 1 ≤ run) (h8 : run ≤ 8) :
    runText run = [Char.ofNat (48 + run)] ∧ (Char.ofNat (48 + run)).isDigit = true ∧
      (Char.ofNat (48 + run)).toNat - 48 = run ∧ Char.ofNat (48 + run) ∈ fenChars := by
  interval_cases run <;> decide

theorem digit_eq_ofNat (c : Char) (hc : c ∈ fenChars) :
    Char.ofNat (48 + (c.toNat - 48)) = c := by
  simp only [fenChars, List.mem_cons, List.mem_singleton, List.not_mem_nil, or_false] at hc
  rcases hc with h | h | h | h | h | h | h | h | h | h | h | h | h | h | h | h | h | h | h | h <;>
    subst h <;> rfl

theorem expandRank_serializeCells (cells : List (Option Piece)) (run : Nat)
    (h : run + cells.length ≤ 8) :
    expandRank (serializeCells run cells) = List.replicate run none ++ cells := by
  induction cells generalizing run with
  | nil =>
    rw [serializeCells]
    by_cases h0 : run = 0
    · subst h0; rfl
    · obtain ⟨e1, e2, e3, _⟩ := runText_spec run (by omega) (by simpa using h)
      rw [e1, expandRank, if_pos e2, e3]
      rfl
  | cons x cs ih =>
    simp only [List.length_cons] at h
    cases x with
    | none =>
      rw [serializeCells, ih (run + 1) (by omega), List.replicate_succ', List.append_assoc]
      rfl
    | some p =>
      obtain ⟨p1, p2, _⟩ := pieceOfLetter_letterOfPiece p
      rw [serializeCells]
      have hrest := ih 0 (by omega)
      simp only [List.replicate_zero, List.nil_append] at hrest
      by_cases h0 : run = 0
      · subst h0
        simp only [runText, if_true, List.nil_append, expandRank, p2, Bool.false_eq_true,
          if_false, p1, hrest, List.replicate_zero]
      · obtain ⟨e1, e2, e3, _⟩ := runText_spec run (by omega) (by omega)
        rw [e1]
        simp only [List.singleton_append, expandRank, e2, if_true, e3, p2, Bool.false_eq_true,
          if_false, p1, hrest]

theorem serializeCells_fenChars (cells : List (Option Piece)) (run : Nat)
    (h : run + cells.length ≤ 8) : ∀ c ∈ serializeCells run cells, c ∈ fenChars := by
  induction cells generalizing run with
  | nil =>
    intro c hc
    rw [serializeCells] at hc
    by_cases h0 : run = 0
    · subst h0; simp [runText] at hc
    · obtain ⟨e1, _, _, e4⟩ := runText_spec run (by omega) (by simpa using h)
      rw [e1] at hc
      rw [List.mem_singleton.mp hc]; exact e4
  | cons x cs ih =>
    simp only [List.length_cons] at h
    intro c hc
    cases x with
    | none =>
      rw [serializeCells] at hc
      exact ih (run + 1) (by omega) c hc
    | some p =>
      rw [serializeCells, List.mem_append, List.mem_cons] at hc
      rcases hc with hc | hc | hc
      · by_cases h0 : run = 0
        · subst h0; simp [runText] at hc
        · obtain ⟨e1, _, _, e4⟩ := runText_spec run (by omega) (by omega)
          rw [e1] at hc
          rw [List.mem_singleton.mp hc]; exact e4
      · rw [hc]; exact (pieceOfLetter_letterOfPiece p).2.2
      · exact ih 0 (by omega) c hc

theorem serializeCells_replicate_append (d run : Nat) (xs : List (Option Piece)) :
    serializeCells run (List.replicate d none ++ xs) = serializeCells (run + d) xs := by
  induction d generalizing run with
  | zero => rfl
  | succ d ih =>
    rw [List.replicate_succ, List.cons_append, serializeCells, ih]
    congr 1; omega

theorem serializeCells_expandRank (r : QString) (hr : ∀ c ∈ r, c ∈ fenChars)
    (hadj : noAdjacentDigits r = true) :
    serializeCells 0 (expandRank r) = r ∧
      (startsWithoutDigit r = true → ∀ run, serializeCells run (expandRank r) = runText run ++ r) := by
  induction r with
  | nil => exact ⟨rfl, fun _ run => by simp [expandRank, serializeCells]⟩
  | cons c cs ih =>
    have hc := hr c (List.mem_cons_self _ _)
    have hcs : ∀ x ∈ cs, x ∈ fenChars := fun x hx => hr x (List.mem_cons_of_mem _ hx)
    have hadj2 : noAdjacentDigits cs = true := by
      cases cs with
      | nil => rfl
      | cons d rest =>
        simp only [noAdjacentDigits, Bool.and_eq_true] at hadj
        exact hadj.2
    obtain ⟨ih0, ihrun⟩ := ih hcs hadj2
    rcases fenChars_cases c hc with ⟨hd, h1, h8⟩ | ⟨hd, p, hp⟩
    · have hstart : startsWithoutDigit cs = true := by
        cases cs with
        | nil => rfl
        | cons d rest =>
          simp only [noAdjacentDigits, Bool.and_eq_true, hd, Bool.true_and,
            Bool.not_eq_true'] at hadj
          simp [startsWithoutDigit, hadj.1]
      refine ⟨?_, fun hs => by simp [startsWithoutDigit, hd] at hs⟩
      rw [expandRank, if_pos hd, serializeCells_replicate_append, ihrun hstart, Nat.zero_add]
      have hrt : runText (c.toNat - 48) = [c] := by
        rw [(runText_spec _ h1 h8).1, digit_eq_ofNat c hc]
      rw [hrt]; rfl
    · have key : ∀ run, serializeCells run (expandRank (c :: cs)) = runText run ++ c :: cs := by
        intro run
        rw [expandRank]
        simp only [hd, Bool.false_eq_true, if_false, hp, serializeCells, ih0,
          letterOfPiece_pieceOfLetter c p hc hp]
      exact ⟨by simpa [runText] using key 0, fun _ => key⟩

/-! ## Round trip of the board layout -/

theorem Board.ext_PieceAt (b1 b2 : Board)
    (h : ∀ f r, f < 8 → r < 8 → b1.PieceAt f r = b2.PieceAt f r) : b1 = b2 := by
  obtain ⟨c1⟩ := b1
  obtain ⟨c2⟩ := b2
  congr 1
  funext f r
  have := h f.1 r.1 f.2 r.2
  simpa [Board.PieceAt, f.2, r.2] using this

theorem map_cellAt_range (xs : List (Option Piece)) (h : xs.length = 8) :
    (List.range 8).map (cellAt xs) = xs := by
  match xs, h with
  | [_, _, _, _, _, _, _, _], _ => rfl

theorem map_getD_range (g : QString → QString) (R : List QString) (h : R.length = 8) :
    (List.range 8).map (fun k => g (R.getD k [])) = R.map g := by
  match R, h with
  | [_, _, _, _, _, _, _, _], _ => rfl

theorem getD_mem_of_lt (R : List QString) (k : Nat) (h : k < R.length) : R.getD k [] ∈ R := by
  rw [List.getD_eq_getElem?_getD, List.getElem?_eq_getElem h]
  exact List.getElem_mem _

theorem fenChars_not_special (c : Char) (hc : c ∈ fenChars) :
    c ≠ '/' ∧ c ≠ ' ' ∧ QChar.isSpace c = false := by
  simp only [fenChars, List.mem_cons, List.mem_singleton, List.not_mem_nil, or_false] at hc
  rcases hc with h | h | h | h | h | h | h | h | h | h | h | h | h | h | h | h | h | h | h | h <;>
    subst h <;> decide

/-- What the board holds after `SetPosition` on a valid string, rank by rank, and the
text it serializes to. -/
theorem SetPosition.rows_spec (w2 : ChessBoardWidget) (R : List QString) (hlen : R.length = 8)
    (hvalid : ∀ l ∈ R, ValidRank l)
    (hcells : ∀ f r, r < 8 → w2.m_board.PieceAt f r = cellAt (expandRank (R.getD (7 - r) [])) f) :
    serializeLayout w2.m_board =
      joinWith '/' (R.map (fun l => serializeCells 0 (expandRank l))) := by
  have hrow : ∀ k, k < 8 → w2.m_board.row (7 - k) = expandRank (R.getD k []) := by
    intro k hk
    have hw := (hvalid _ (getD_mem_of_lt R k (by omega))).2
    unfold Board.row
    rw [← map_cellAt_range (expandRank (R.getD k [])) hw]
    apply List.map_congr_left
    intro f _
    rw [hcells f (7 - k) (by omega)]
    congr 3
    omega
  unfold serializeLayout
  rw [← map_getD_range (fun l => serializeCells 0 (expandRank l)) R hlen]
  congr 1
  apply List.map_congr_left
  intro k hk
  rw [hrow k (List.mem_range.mp hk)]

theorem serialized_ranks_valid (R : List QString) (hvalid : ∀ l ∈ R, ValidRank l) :
    ∀ l ∈ R.map (fun l => serializeCells 0 (expandRank l)),
      ValidRank l ∧ '/' ∉ l ∧ ' ' ∉ l ∧ ∀ c ∈ l, QChar.isSpace c = false := by
  intro l hl
  obtain ⟨r, hr, rfl⟩ := List.mem_map.mp hl
  obtain ⟨_, hw⟩ := hvalid r hr
  have hchars := serializeCells_fenChars (expandRank r) 0 (by omega)
  refine ⟨⟨hchars, ?_⟩, ?_, ?_, ?_⟩
  · rw [expandRank_serializeCells _ 0 (by omega)]
    simpa using hw
  · exact fun hm => (fenChars_not_special _ (hchars _ hm)).1 rfl
  · exact fun hm => (fenChars_not_special _ (hchars _ hm)).2.1 rfl
  · exact fun c hm => (fenChars_not_special _ (hchars _ hm)).2.2

theorem SetPosition.reparse (w2 w3 : ChessBoardWidget) (s3 : QString) (R : List QString)
    (hlen : R.length = 8) (hvalid : ∀ l ∈ R, ValidRank l)
    (hcells : ∀ f r, r < 8 → w2.m_board.PieceAt f r = cellAt (expandRank (R.getD (7 - r) [])) f)
    (hsix : (positionFields s3).length = 6)
    (hfield : QString.trimmed ((positionFields s3).getD 0 []) = serializeLayout w2.m_board) :
    ∃ w4, ChessBoardWidget.SetPosition w3 s3 = some w4 ∧ w4.m_board = w2.m_board := by
  have hser := SetPosition.rows_spec w2 R hlen hvalid hcells
  have hsv := serialized_ranks_valid R hvalid
  have hsplit : QString.split '/' (serializeLayout w2.m_board) =
      R.map (fun l => serializeCells 0 (expandRank l)) := by
    rw [hser]
    apply QString.split_joinWith
    · intro hnil
      have := congrArg List.length hnil
      simp [hlen] at this
    · exact fun p hp => (hsv p hp).2.1
  have hv3 : ValidPosition s3 := by
    refine ⟨hsix, ?_, ?_⟩
    · rw [hfield, hsplit]; simpa using hlen
    · rw [hfield, hsplit]; exact fun l hl => (hsv l hl).1
  obtain ⟨w4, hrun, hc4, _⟩ := SetPosition.valid_spec w3 s3 hv3
  refine ⟨w4, hrun, ?_⟩
  apply Board.ext_PieceAt
  intro f r _ hr
  rw [hc4 f r hr, hcells f r hr]
  unfold layoutRanks
  rw [hfield, hsplit]
  have hk : 7 - r < R.length := by omega
  have hget : (R.map (fun l => serializeCells 0 (expandRank l))).getD (7 - r) [] =
      serializeCells 0 (expandRank (R.getD (7 - r) [])) := by
    rw [List.getD_eq_getElem?_getD, List.getD_eq_getElem?_getD, List.getElem?_map,
      List.getElem?_eq_getElem hk]
    rfl
  rw [hget, expandRank_serializeCells _ 0
    (by rw [(hvalid _ (getD_mem_of_lt R _ hk)).2])]
  rfl

theorem positionFields_append_tail (a : QString) (hne : a ≠ [])
    (ha : ∀ c ∈ a, QChar.isSpace c = false) (hsp : ' ' ∉ a) :
    positionFields (a ++ " w - - 0 1".toList) = [a, ['w'], ['-'], ['-'], ['0'], ['1']] := by
  have htrim : QString.trimmed (a ++ " w - - 0 1".toList) = a ++ " w - - 0 1".toList := by
    cases a with
    | nil => exact absurd rfl hne
    | cons c cs =>
      unfold QString.trimmed
      have h1 : (c :: cs ++ " w - - 0 1".toList).dropWhile QChar.isSpace =
          c :: cs ++ " w - - 0 1".toList := by
        rw [List.cons_append, List.dropWhile_cons, ha c (List.mem_cons_self _ _)]
        rfl
      have h2 : (c :: cs ++ " w - - 0 1".toList).reverse =
          '1' :: ([' ', '0', ' ', '-', ' ', '-', ' ', 'w', ' '] ++ (c :: cs).reverse) := by
        rw [List.reverse_append]
        rfl
      have h3 : QChar.isSpace '1' = false := by decide
      rw [h1, h2, List.dropWhile_cons, h3]
      simp only [Bool.false_eq_true, if_false]
      rw [← h2, List.reverse_reverse]
  unfold positionFields
  rw [htrim]
  have : a ++ " w - - 0 1".toList = a ++ ' ' :: "w - - 0 1".toList := rfl
  rw [this, QString.split_append_sep ' ' a _ hsp]
  rfl

theorem serializeLayout_chars (R : List QString) (hlen : R.length = 8)
    (hvalid : ∀ l ∈ R, ValidRank l) :
    joinWith '/' (R.map (fun l => serializeCells 0 (expandRank l))) ≠ [] ∧
    (∀ c ∈ joinWith '/' (R.map (fun l => serializeCells 0 (expandRank l))),
      QChar.isSpace c = false) ∧
    ' ' ∉ joinWith '/' (R.map (fun l => serializeCells 0 (expandRank l))) := by
  have hsv := serialized_ranks_valid R hvalid
  have hns : ∀ c ∈ joinWith '/' (R.map (fun l => serializeCells 0 (expandRank l))),
      QChar.isSpace c = false ∧ c ≠ ' ' := by
    intro c hc
    rcases mem_of_mem_joinWith _ _ _ hc with h | ⟨p, hp, hcp⟩
    · subst h; decide
    · exact ⟨(hsv p hp).2.2.2 c hcp, fun h => (hsv p hp).2.2.1 (h ▸ hcp)⟩
  refine ⟨?_, fun c hc => (hns c hc).1, fun hm => (hns _ hm).2 rfl⟩
  match R, hlen with
  | [_, _, _, _, _, _, _, _], _ => simp [joinWith]

theorem layout_no_space (layout : QString) (h : ValidLayout layout) :
    QString.trimmed layout = layout := by
  apply QString.trimmed_of_no_space
  intro c hc
  rw [← joinWith_split '/' layout] at hc
  rcases mem_of_mem_joinWith _ _ _ hc with h2 | ⟨p, hp, hcp⟩
  · subst h2; decide
  · exact (fenChars_not_special c ((h.2 p hp).1 c hcp)).2.2

theorem map_eq_self_of_forall (g : QString → QString) (R : List QString)
    (h : ∀ l ∈ R, g l = l) : R.map g = R := by
  induction R with
  | nil => rfl
  | cons x xs ih =>
    rw [List.map_cons, h x (List.mem_cons_self _ _),
      ih (fun l hl => h l (List.mem_cons_of_mem _ hl))]

/-- C2: for every valid position string, `SetPosition` succeeds and, with the resulting
grid re-serialized (rank 8 first, runs of empty files as digits), parsing any six-field
position string whose layout field is that text, such as the text followed by
` w - - 0 1`, gives the same grid; and for a layout in canonical form the re-serialized
text is the input layout field. -/
theorem C2_layout_roundtrip (w : ChessBoardWidget) (s : QString) (h : ValidPosition s) :
    ∃ w2, ChessBoardWidget.SetPosition w s = some w2 ∧
      (∀ (w3 : ChessBoardWidget) (s3 : QString), (positionFields s3).length = 6 →
        QString.trimmed ((positionFields s3).getD 0 []) = serializeLayout w2.m_board →
        ∃ w4, ChessBoardWidget.SetPosition w3 s3 = some w4 ∧ w4.m_board = w2.m_board) ∧
      (∀ w3 : ChessBoardWidget, ∃ w4,
        ChessBoardWidget.SetPosition w3 (serializeLayout w2.m_board ++ " w - - 0 1".toList) =
          some w4 ∧ w4.m_board = w2.m_board) ∧
      (CanonicalLayout ((positionFields s).getD 0 []) →
        serializeLayout w2.m_board = (positionFields s).getD 0 []) := by
  obtain ⟨w2, hrun, hcells, _⟩ := SetPosition.valid_spec w s h
  have hlen := h.2.1
  have hvalid := h.2.2
  have hser := SetPosition.rows_spec w2 _ hlen hvalid hcells
  refine ⟨w2, hrun, ?_, ?_, ?_⟩
  · intro w3 s3 hsix hfield
    exact SetPosition.reparse w2 w3 s3 _ hlen hvalid hcells hsix hfield
  · intro w3
    obtain ⟨hne, hns, hsp⟩ := serializeLayout_chars _ hlen hvalid
    rw [← hser] at hne hns hsp
    have hfields := positionFields_append_tail _ hne hns hsp
    apply SetPosition.reparse w2 w3 _ _ hlen hvalid hcells
    · rw [hfields]; rfl
    · rw [hfields]
      exact QString.trimmed_of_no_space _ hns
  · intro hcanon
    have htrim := layout_no_space _ hcanon.1
    rw [hser, htrim]
    rw [map_eq_self_of_forall _ _ (fun l hl =>
      (serializeCells_expandRank l (hcanon.1.2 l hl).1 (hcanon.2 l hl)).1)]
    exact joinWith_split '/' _

theorem C2_layout_roundtrip_witness :
    ValidPosition "r1bqkbnr/pppp1ppp/2n5/4p3/4P3/5N2/PPPP1PPP/RNBQKB1R b KQkq - 2 3".toList ∧
    ∃ w2, ChessBoardWidget.SetPosition ChessBoardWidget.blank
        "r1bqkbnr/pppp1ppp/2n5/4p3/4P3/5N2/PPPP1PPP/RNBQKB1R b KQkq - 2 3".toList = some w2 ∧
      (∀ (w3 : ChessBoardWidget) (s3 : QString), (positionFields s3).length = 6 →
        QString.trimmed ((positionFields s3).getD 0 []) = serializeLayout w2.m_board →
        ∃ w4, ChessBoardWidget.SetPosition w3 s3 = some w4 ∧ w4.m_board = w2.m_board) ∧
      (∀ w3 : ChessBoardWidget, ∃ w4,
        ChessBoardWidget.SetPosition w3 (serializeLayout w2.m_board ++ " w - - 0 1".toList) =
          some w4 ∧ w4.m_board = w2.m_board) ∧
      (CanonicalLayout ((positionFields
          "r1bqkbnr/pppp1ppp/2n5/4p3/4P3/5N2/PPPP1PPP/RNBQKB1R b KQkq - 2 3".toList).getD 0 []) →
        serializeLayout w2.m_board = (positionFields
          "r1bqkbnr/pppp1ppp/2n5/4p3/4P3/5N2/PPPP1PPP/RNBQKB1R b KQkq - 2 3".toList).getD 0 []) :=
  ⟨by decide, C2_layout_roundtrip ChessBoardWidget.blank _ (by decide)⟩


/-! ## The start half-move -/

theorem UpdateLineInfo.loop_spec (fmt : Int → QString) (n i : Nat) (st : MainWindow)
    (h : i + n ≤ st.m_depth_infos.length) :
    ∃ st2, MainWindow.UpdateLineInfo.loop fmt n i st = some st2 ∧
      st2.m_depth_infos = st.m_depth_infos ∧
      st2.m_num_received_lines = st.m_num_received_lines ∧
      st2.m_start_half_moves = st.m_start_half_moves ∧
      st2.m_moves_list = st.m_moves_list ∧
      st2.m_board.m_playing_colour = st.m_board.m_playing_colour ∧
      st2.m_board.m_board = st.m_board.m_board ∧
      st2.teLines = st.teLines ++ ((st.m_depth_infos.drop i).take n).map
        (MainWindow.UpdateLineInfo.text fmt st.m_start_half_moves st.m_board.m_playing_colour) := by
  induction n generalizing i st with
  | zero => exact ⟨st, rfl, rfl, rfl, rfl, rfl, rfl, rfl, by simp⟩
  | succ n ih =>
    have hi : i < st.m_depth_infos.length := by omega
    have hget : st.m_depth_infos[i]? = some st.m_depth_infos[i] := List.getElem?_eq_getElem hi
    have hdrop : st.m_depth_infos.drop i = st.m_depth_infos[i] :: st.m_depth_infos.drop (i + 1) :=
      List.drop_eq_getElem_cons hi
    rw [MainWindow.UpdateLineInfo.loop]
    simp only [hget]
    by_cases h0 : i = 0
    · obtain ⟨st2, hrun, e1, e2, e3, e4, e5, e6, e7⟩ := ih (i + 1)
        { st with
          teLines := st.teLines ++ [MainWindow.UpdateLineInfo.text fmt st.m_start_half_moves
            st.m_board.GetPlayingColour st.m_depth_infos[i]]
          m_board := st.m_board.SetScore
            (MainWindow.UpdateLineInfo.score st.m_board.GetPlayingColour st.m_depth_infos[i])
            st.m_depth_infos[i].mate_counter } (by simpa using by omega)
      refine ⟨st2, ?_, e1, e2, e3, e4, e5, e6, ?_⟩
      · simp only [h0, if_true] at hrun ⊢
        exact hrun
      · rw [e7]
        simp only [hdrop, List.take_succ_cons, List.map_cons, List.append_assoc,
          List.singleton_append, ChessBoardWidget.GetPlayingColour, ChessBoardWidget.SetScore]
    · obtain ⟨st2, hrun, e1, e2, e3, e4, e5, e6, e7⟩ := ih (i + 1)
        { st with
          teLines := st.teLines ++ [MainWindow.UpdateLineInfo.text fmt st.m_start_half_moves
            st.m_board.GetPlayingColour st.m_depth_infos[i]] } (by simpa using by omega)
      refine ⟨st2, ?_, e1, e2, e3, e4, e5, e6, ?_⟩
      · simp only [h0, if_false] at hrun ⊢
        exact hrun
      · rw [e7]
        simp only [hdrop, List.take_succ_cons, List.map_cons, List.append_assoc,
          List.singleton_append, ChessBoardWidget.GetPlayingColour]

theorem OnDepthInfoAvailable_spec (fmt : Int → QString) (st : MainWindow)
    (info : UCIEngine.DepthInfo) (h1 : 1 ≤ info.line_id)
    (h2 : info.line_id ≤ st.m_depth_infos.length) (h32 : info.line_id < 4294967296) :
    ∃ st2, MainWindow.OnDepthInfoAvailable fmt st info = some st2 ∧
      st2.m_depth_infos = st.m_depth_infos.set (info.line_id - 1) info ∧
      st2.m_num_received_lines = info.line_id ∧
      st2.m_start_half_moves = st.m_start_half_moves ∧
      st2.m_moves_list = st.m_moves_list ∧
      st2.m_board.m_playing_colour = st.m_board.m_playing_colour ∧
      st2.m_board.m_board = st.m_board.m_board ∧
      st2.teLines = ((st.m_depth_infos.set (info.line_id - 1) info).take info.line_id).map
        (MainWindow.UpdateLineInfo.text fmt st.m_start_half_moves st.m_board.m_playing_colour) := by
  have hid : info.line_id % 4294967296 = info.line_id := Nat.mod_eq_of_lt h32
  have hidx : (info.line_id + 4294967295) % 4294967296 = info.line_id - 1 := by omega
  obtain ⟨st2, hrun, e1, e2, e3, e4, e5, e6, e7⟩ := UpdateLineInfo.loop_spec fmt info.line_id 0
    { st with
      m_num_received_lines := info.line_id
      m_depth_infos := st.m_depth_infos.set (info.line_id - 1) info
      teLines := [] } (by simpa using h2)
  refine ⟨st2, ?_, e1, e2, e3, e4, e5, e6, ?_⟩
  · unfold MainWindow.OnDepthInfoAvailable MainWindow.UpdateLineInfo
    simp only [hid, hidx]
    rw [if_neg (by omega), if_pos (by omega)]
    exact hrun
  · rw [e7]; simp

theorem OnDepthInfoAvailable_drops_above (fmt : Int → QString) (st : MainWindow)
    (info : UCIEngine.DepthInfo) (h32 : info.line_id < 4294967296)
    (h : st.m_depth_infos.length < info.line_id) :
    MainWindow.OnDepthInfoAvailable fmt st info = some st := by
  unfold MainWindow.OnDepthInfoAvailable
  simp only [Nat.mod_eq_of_lt h32]
  rw [if_pos h]

/-- C4, the failing input: an update with `line_id = 0` passes the guard
`line_id > m_depth_infos.size()` and indexes the slot vector at `0 - 1 = 2^32 - 1`,
outside the vector; the update is not dropped. -/
theorem C4_line_zero_out_of_bounds (fmt : Int → QString) (st : MainWindow)
    (info : UCIEngine.DepthInfo) (h0 : info.line_id = 0)
    (hsize : st.m_depth_infos.length < 4294967296) :
    MainWindow.OnDepthInfoAvailable fmt st info = none := by
  unfold MainWindow.OnDepthInfoAvailable
  simp only [h0]
  rw [if_neg (by omega), if_neg (by simpa using by omega)]

theorem C4_line_zero_out_of_bounds_witness :
    (⟨0, ["e2e4".toList], 25, false⟩ : UCIEngine.DepthInfo).line_id = 0 ∧
    (MainWindow.SetNumLines (MainWindow.Init MainWindow.fresh) 3).m_depth_infos.length = 3 ∧
    MainWindow.OnDepthInfoAvailable sampleSignedScore
      (MainWindow.SetNumLines (MainWindow.Init MainWindow.fresh) 3)
      ⟨0, ["e2e4".toList], 25, false⟩ = none :=
  ⟨rfl, by decide, C4_line_zero_out_of_bounds sampleSignedScore _ _ rfl (by decide)⟩

theorem deliver_three (fmt : Int → QString) (st : MainWindow) (x y z : UCIEngine.DepthInfo)
    (hlen : st.m_depth_infos.length = 3)
    (hx : 1 ≤ x.line_id ∧ x.line_id ≤ 3) (hy : 1 ≤ y.line_id ∧ y.line_id ≤ 3)
    (hz : 1 ≤ z.line_id ∧ z.line_id ≤ 3) :
    ∃ st3, MainWindow.deliver fmt st [x, y, z] = some st3 ∧
      st3.m_depth_infos = ((st.m_depth_infos.set (x.line_id - 1) x).set (y.line_id - 1) y).set
        (z.line_id - 1) z ∧
      st3.m_num_received_lines = z.line_id ∧
      st3.teLines = (st3.m_depth_infos.take z.line_id).map
        (MainWindow.UpdateLineInfo.text fmt st.m_start_half_moves st.m_board.m_playing_colour) := by
  obtain ⟨s1, r1, a1, _, a3, _, a5, _, _⟩ := OnDepthInfoAvailable_spec fmt st x hx.1
    (by omega) (by omega)
  obtain ⟨s2, r2, b1, _, b3, _, b5, _, _⟩ := OnDepthInfoAvailable_spec fmt s1 y hy.1
    (by rw [a1, List.length_set]; omega) (by omega)
  obtain ⟨s3, r3, c1, c2, c3, _, c5, _, c7⟩ := OnDepthInfoAvailable_spec fmt s2 z hz.1
    (by rw [b1, List.length_set, a1, List.length_set]; omega) (by omega)
  refine ⟨s3, ?_, ?_, c2, ?_⟩
  · simp only [MainWindow.deliver, r1, r2, r3]
  · rw [c1, b1, a1]
  · rw [c7, c1, b3, a3, b5, a5]

/-- C5 (as amended): with three slots freshly set up, after one update each for the
lines 1, 2 and 3 in any of the six arrival orders, the render holds the lines
`1 .. L` in index order, `L` the line id of the last update to arrive; for the orders
that end with line 3 (among them 2, 1, 3) it holds all three lines in the order
1, 2, 3. -/
theorem C5_render_after_three_updates (fmt : Int → QString) (st : MainWindow)
    (u1 u2 u3 : UCIEngine.DepthInfo) (h1 : u1.line_id = 1) (h2 : u2.line_id = 2)
    (h3 : u3.line_id = 3) (order : List UCIEngine.DepthInfo)
    (horder : order ∈ arrivalOrders u1 u2 u3) :
    ∃ st3, MainWindow.deliver fmt (MainWindow.SetNumLines st 3) order = some st3 ∧
      st3.m_depth_infos = [u1, u2, u3] ∧
      st3.teLines = ([u1, u2, u3].take (lastLineId order)).map
        (MainWindow.UpdateLineInfo.text fmt st.m_start_half_moves st.m_board.m_playing_colour) ∧
      (lastLineId order = 3 →
        st3.teLines = [u1, u2, u3].map
          (MainWindow.UpdateLineInfo.text fmt st.m_start_half_moves st.m_board.m_playing_colour)) := by
  have key : ∀ x y z : UCIEngine.DepthInfo, order = [x, y, z] →
      (1 ≤ x.line_id ∧ x.line_id ≤ 3) → (1 ≤ y.line_id ∧ y.line_id ≤ 3) →
      (1 ≤ z.line_id ∧ z.line_id ≤ 3) →
      (((List.replicate 3 UCIEngine.DepthInfo.empty).set (x.line_id - 1) x).set
        (y.line_id - 1) y).set (z.line_id - 1) z = [u1, u2, u3] →
      ∃ st3, MainWindow.deliver fmt (MainWindow.SetNumLines st 3) order = some st3 ∧
        st3.m_depth_infos = [u1, u2, u3] ∧
        st3.teLines = ([u1, u2, u3].take (lastLineId order)).map
          (MainWindow.UpdateLineInfo.text fmt st.m_start_half_moves
            st.m_board.m_playing_colour) ∧
        (lastLineId order = 3 →
          st3.teLines = [u1, u2, u3].map
            (MainWindow.UpdateLineInfo.text fmt st.m_start_half_moves
              st.m_board.m_playing_colour)) := by
    intro x y z ho hx hy hz hset
    obtain ⟨st3, r, e1, _, e3⟩ := deliver_three fmt (MainWindow.SetNumLines st 3) x y z
      (by simp [MainWindow.SetNumLines]) hx hy hz
    have hinfos : st3.m_depth_infos = [u1, u2, u3] := by
      rw [e1]; exact hset
    have hlast : lastLineId order = z.line_id := by rw [ho]; rfl
    have hlines : st3.teLines = ([u1, u2, u3].take (lastLineId order)).map
        (MainWindow.UpdateLineInfo.text fmt st.m_start_half_moves
          st.m_board.m_playing_colour) := by
      rw [e3, hinfos, hlast]; rfl
    refine ⟨st3, by rw [ho]; exact r, hinfos, hlines, ?_⟩
    intro h
    rw [hlines, h]; rfl
  simp only [arrivalOrders, List.mem_cons, List.mem_singleton, List.not_mem_nil, or_false]
    at horder
  rcases horder with h | h | h | h | h | h
  · exact key u1 u2 u3 h (by omega) (by omega) (by omega) (by simp [h1, h2, h3])
  · exact key u1 u3 u2 h (by omega) (by omega) (by omega) (by simp [h1, h2, h3])
  · exact key u2 u1 u3 h (by omega) (by omega) (by omega) (by simp [h1, h2, h3])
  · exact key u2 u3 u1 h (by omega) (by omega) (by omega) (by simp [h1, h2, h3])
  · exact key u3 u1 u2 h (by omega) (by omega) (by omega) (by simp [h1, h2, h3])
  · exact key u3 u2 u1 h (by omega) (by omega) (by omega) (by simp [h1, h2, h3])

theorem C5_render_after_three_updates_witness :
    sampleLine1.line_id = 1 ∧ sampleLine2.line_id = 2 ∧ sampleLine3.line_id = 3 ∧
    [sampleLine2, sampleLine1, sampleLine3] ∈ arrivalOrders sampleLine1 sampleLine2 sampleLine3 ∧
    ∃ st3, MainWindow.deliver sampleSignedScore (MainWindow.SetNumLines MainWindow.fresh 3)
        [sampleLine2, sampleLine1, sampleLine3] = some st3 ∧
      st3.m_depth_infos = [sampleLine1, sampleLine2, sampleLine3] ∧
      st3.teLines = ([sampleLine1, sampleLine2, sampleLine3].take
          (lastLineId [sampleLine2, sampleLine1, sampleLine3])).map
        (MainWindow.UpdateLineInfo.text sampleSignedScore MainWindow.fresh.m_start_half_moves
          MainWindow.fresh.m_board.m_playing_colour) ∧
      (lastLineId [sampleLine2, sampleLine1, sampleLine3] = 3 →
        st3.teLines = [sampleLine1, sampleLine2, sampleLine3].map
          (MainWindow.UpdateLineInfo.text sampleSignedScore MainWindow.fresh.m_start_half_moves
            MainWindow.fresh.m_board.m_playing_colour)) :=
  ⟨rfl, rfl, rfl, by decide,
    C5_render_after_three_updates sampleSignedScore MainWindow.fresh sampleLine1 sampleLine2
      sampleLine3 rfl rfl rfl _ (by decide)⟩

/-- C5, the claim as stated fails: when the updates arrive in the order 3, 2, 1 the
final render holds line 1 only. -/
theorem C5_counterexample :
    [sampleLine3, sampleLine2, sampleLine1] ∈ arrivalOrders sampleLine1 sampleLine2 sampleLine3 ∧
    (MainWindow.deliver sampleSignedScore (MainWindow.SetNumLines MainWindow.fresh 3)
        [sampleLine3, sampleLine2, sampleLine1]).map
      (fun st => (st.m_depth_infos, st.m_num_received_lines, st.teLines)) =
      some ([sampleLine1, sampleLine2, sampleLine3], 1, ["<b>[-20]</b> 1. d2d4<br>".toList]) := by
  decide

/-- C6: an update with `line_id` in `[1, capacity]` is stored in slot `line_id - 1`,
every other slot and the number of slots stay as they were; and after `SetNumLines(1)`
two updates with `line_id = 1` leave the second one in slot 0 and a render of exactly
one line, the text of the second update. -/
theorem C6_update_overwrites_own_slot (fmt : Int → QString) (st : MainWindow)
    (info : UCIEngine.DepthInfo) (h1 : 1 ≤ info.line_id)
    (h2 : info.line_id ≤ st.m_depth_infos.length) (h32 : info.line_id < 4294967296) :
    (∃ st2, MainWindow.OnDepthInfoAvailable fmt st info = some st2 ∧
      st2.m_depth_infos[info.line_id - 1]? = some info ∧
      (∀ k, k ≠ info.line_id - 1 → st2.m_depth_infos[k]? = st.m_depth_infos[k]?) ∧
      st2.m_depth_infos.length = st.m_depth_infos.length) ∧
    (∀ a b : UCIEngine.DepthInfo, a.line_id = 1 → b.line_id = 1 →
      ∃ st3, MainWindow.deliver fmt (MainWindow.SetNumLines st 1) [a, b] = some st3 ∧
        st3.m_depth_infos = [b] ∧
        st3.teLines = [MainWindow.UpdateLineInfo.text fmt st.m_start_half_moves
          st.m_board.m_playing_colour b]) := by
  constructor
  · obtain ⟨st2, hrun, e1, _⟩ := OnDepthInfoAvailable_spec fmt st info h1 h2 h32
    refine ⟨st2, hrun, ?_, ?_, ?_⟩
    · rw [e1, List.getElem?_set_self (by omega)]
    · intro k hk
      rw [e1, List.getElem?_set_ne (Ne.symm hk)]
    · rw [e1, List.length_set]
  · intro a b ha hb
    obtain ⟨s1, r1, a1, _, a3, _, a5, _, _⟩ := OnDepthInfoAvailable_spec fmt
      (MainWindow.SetNumLines st 1) a (by omega) (by simp [MainWindow.SetNumLines, ha])
      (by omega)
    obtain ⟨s2, r2, b1, _, _, _, _, _, b7⟩ := OnDepthInfoAvailable_spec fmt s1 b (by omega)
      (by rw [a1]; simp [MainWindow.SetNumLines, hb]) (by omega)
    have hinfos : s1.m_depth_infos.set (b.line_id - 1) b = [b] := by
      rw [a1]; simp [MainWindow.SetNumLines, ha, hb]
    refine ⟨s2, by simp only [MainWindow.deliver, r1, r2], by rw [b1, hinfos], ?_⟩
    rw [b7, hinfos, a3, a5, hb]
    rfl

theorem C6_update_overwrites_own_slot_witness :
    1 ≤ sampleLine2.line_id ∧
    sampleLine2.line_id ≤ (MainWindow.SetNumLines MainWindow.fresh 3).m_depth_infos.length ∧
    sampleLine2.line_id < 4294967296 ∧
    (∃ st2, MainWindow.OnDepthInfoAvailable sampleSignedScore
        (MainWindow.SetNumLines MainWindow.fresh 3) sampleLine2 = some st2 ∧
      st2.m_depth_infos[sampleLine2.line_id - 1]? = some sampleLine2 ∧
      (∀ k, k ≠ sampleLine2.line_id - 1 →
        st2.m_depth_infos[k]? = (MainWindow.SetNumLines MainWindow.fresh 3).m_depth_infos[k]?) ∧
      st2.m_depth_infos.length =
        (MainWindow.SetNumLines MainWindow.fresh 3).m_depth_infos.length) ∧
    (∃ st3, MainWindow.deliver sampleSignedScore
        (MainWindow.SetNumLines (MainWindow.SetNumLines MainWindow.fresh 3) 1)
        [sampleLine1, sampleLine1b] = some st3 ∧
      st3.m_depth_infos = [sampleLine1b] ∧
      st3.teLines = ["<b>[12]</b> 1. g1f3 d7d5<br>".toList]) :=
  ⟨by decide, by decide, by decide,
    (C6_update_overwrites_own_slot sampleSignedScore (MainWindow.SetNumLines MainWindow.fresh 3)
      sampleLine2 (by decide) (by decide) (by decide)).1,
    (C6_update_overwrites_own_slot sampleSignedScore (MainWindow.SetNumLines MainWindow.fresh 3)
      sampleLine2 (by decide) (by decide) (by decide)).2 sampleLine1 sampleLine1b rfl rfl⟩

/-- C7 (as amended): for every `n` a `uint8_t` can hold and every prior state,
`SetNumLines(n)` leaves exactly `n` slots, each the empty record, and leaves
`m_num_received_lines` as it was. -/
theorem C7_SetNumLines_resets_slots (st : MainWindow) (n : Nat) (hn : n < 256) :
    (MainWindow.SetNumLines st n).m_depth_infos.length = n ∧
    (∀ x ∈ (MainWindow.SetNumLines st n).m_depth_infos, x = UCIEngine.DepthInfo.empty) ∧
    (MainWindow.SetNumLines st n).m_depth_infos = List.replicate n UCIEngine.DepthInfo.empty ∧
    (MainWindow.SetNumLines st n).m_num_received_lines = st.m_num_received_lines := by
  have e : (MainWindow.SetNumLines st n).m_depth_infos =
      List.replicate n UCIEngine.DepthInfo.empty := by
    simp only [MainWindow.SetNumLines, Nat.mod_eq_of_lt hn]
  refine ⟨by rw [e, List.length_replicate], ?_, e, rfl⟩
  intro x hx
  rw [e] at hx
  exact List.eq_of_mem_replicate hx

theorem C7_SetNumLines_resets_slots_witness :
    (2 : Nat) < 256 ∧
    (MainWindow.SetNumLines MainWindow.fresh 2).m_depth_infos.length = 2 ∧
    (∀ x ∈ (MainWindow.SetNumLines MainWindow.fresh 2).m_depth_infos,
      x = UCIEngine.DepthInfo.empty) ∧
    (MainWindow.SetNumLines MainWindow.fresh 2).m_depth_infos =
      List.replicate 2 UCIEngine.DepthInfo.empty ∧
    (MainWindow.SetNumLines MainWindow.fresh 2).m_num_received_lines =
      MainWindow.fresh.m_num_received_lines :=
  ⟨by decide, C7_SetNumLines_resets_slots MainWindow.fresh 2 (by decide)⟩

/-- C7, the claim as stated fails: after the updates for lines 1 and 2 of three,
`SetNumLines(1)` leaves `m_num_received_lines` at 2, not 0. -/
theorem C7_counterexample :
    (MainWindow.deliver sampleSignedScore (MainWindow.SetNumLines (MainWindow.Init MainWindow.fresh) 3)
        [sampleLine1, sampleLine2]).map
      (fun st => (st.m_num_received_lines, (MainWindow.SetNumLines st 1).m_num_received_lines,
        (MainWindow.SetNumLines st 1).m_depth_infos)) =
      some (2, 2, [UCIEngine.DepthInfo.empty]) := by
  decide

/-! ## Rejection of position strings and the side to move -/

/-- C9 (as amended): `MainWindow::SetPosition` returns false and leaves the whole state
(board, side to move, move list, start half-move) as it was whenever the string is
empty or does not split into exactly six space-separated fields. -/
theorem C9_SetPosition_rejects_field_count (st : MainWindow) (s : QString)
    (h : s = [] ∨ (QString.split ' ' s).length ≠ 6) :
    MainWindow.SetPosition st s = some (st, false) := by
  unfold MainWindow.SetPosition
  rcases h with h | h
  · subst h; rfl
  · split
    · rfl
    · rw [if_pos h]

theorem C9_SetPosition_rejects_field_count_witness :
    ("8/8/8/8/8/8/8/8 w - - 0".toList = [] ∨
      (QString.split ' ' "8/8/8/8/8/8/8/8 w - - 0".toList).length ≠ 6) ∧
    MainWindow.SetPosition MainWindow.sample "8/8/8/8/8/8/8/8 w - - 0".toList =
      some (MainWindow.sample, false) :=
  ⟨by decide, C9_SetPosition_rejects_field_count MainWindow.sample _ (by decide)⟩

/-- C9, the claim as stated fails: a six-field string whose full-move number does not
parse (`x`, read as 0) and one whose board layout is not a valid layout
(`xxxxxxxx/...`) are both accepted: the call returns true, the board is cleared and the
side to move, move list and start half-move are overwritten. -/
theorem C9_counterexample :
    QString.toUInt "x".toList = 0 ∧
    ¬ ValidLayout "xxxxxxxx/8/8/8/8/8/8/8".toList ∧
    (MainWindow.sample.m_board.m_board.PieceAt 4 0, MainWindow.sample.m_board.m_playing_colour,
      MainWindow.sample.m_moves_list, MainWindow.sample.m_start_half_moves) =
      (some ⟨PieceType.KING, Colour.WHITE⟩, Colour.WHITE, ["e2e4".toList], 0) ∧
    (MainWindow.SetPosition MainWindow.sample "8/8/8/8/8/8/8/8 b - - 0 x".toList).map
      (fun r => (r.2, r.1.m_board.m_board.PieceAt 4 0, r.1.m_board.m_playing_colour)) =
      some (true, none, Colour.BLACK) ∧
    (MainWindow.SetPosition MainWindow.sample "8/8/8/8/8/8/8/8 b - - 0 x".toList).map
      (fun r => (r.1.m_moves_list, r.1.m_start_half_moves)) = some ([], 4294967295) ∧
    (MainWindow.SetPosition MainWindow.sample "xxxxxxxx/8/8/8/8/8/8/8 b - - 0 3".toList).map
      (fun r => (r.2, r.1.m_board.m_board.PieceAt 4 0, r.1.m_board.m_playing_colour)) =
      some (true, none, Colour.BLACK) ∧
    (MainWindow.SetPosition MainWindow.sample "xxxxxxxx/8/8/8/8/8/8/8 b - - 0 3".toList).map
      (fun r => (r.1.m_moves_list, r.1.m_start_half_moves)) = some ([], 5) := by
  decide

/-- C10: on a position string with six fields and a valid layout,
`ChessBoardWidget::SetPosition` completes; the side to move is WHITE when the second
field is `w`, BLACK when it is `b`, and the side to move of before the call for every
other value of that field; the half-move counter is derived from the side to move so
obtained. -/
theorem C10_side_to_move (w : ChessBoardWidget) (s : QString) (h : ValidPosition s) :
    ∃ w2, ChessBoardWidget.SetPosition w s = some w2 ∧
      ((positionFields s).getD 1 [] = ['w'] → w2.m_playing_colour = Colour.WHITE) ∧
      ((positionFields s).getD 1 [] = ['b'] → w2.m_playing_colour = Colour.BLACK) ∧
      ((positionFields s).getD 1 [] ≠ ['w'] → (positionFields s).getD 1 [] ≠ ['b'] →
        w2.m_playing_colour = w.m_playing_colour ∧
        w2.m_half_moves = ChessBoardWidget.halfMoves
          (QString.toUInt ((positionFields s).getD 5 [])) w.m_playing_colour) ∧
      w2.m_half_moves = ChessBoardWidget.halfMoves
        (QString.toUInt ((positionFields s).getD 5 [])) w2.m_playing_colour := by
  obtain ⟨w2, hrun, _, hcol, hhalf, _, _⟩ := SetPosition.valid_spec w s h
  refine ⟨w2, hrun, ?_, ?_, ?_, hhalf⟩
  · intro hw
    rw [hcol, if_pos hw]
  · intro hb
    rw [hcol, hb]
    simp
  · intro hw hb
    have hc : w2.m_playing_colour = w.m_playing_colour := by
      rw [hcol, if_neg hw, if_neg hb]
    exact ⟨hc, by rw [hhalf, hc]⟩

theorem C10_side_to_move_witness :
    ValidPosition "8/8/8/8/8/8/8/8 - KQkq - 0 4".toList ∧
    ∃ w2, ChessBoardWidget.SetPosition
        { ChessBoardWidget.blank with m_playing_colour := Colour.BLACK }
        "8/8/8/8/8/8/8/8 - KQkq - 0 4".toList = some w2 ∧
      w2.m_playing_colour = Colour.BLACK ∧ w2.m_half_moves = 7 :=
  ⟨by decide, by
    obtain ⟨w2, hrun, _, _, hkeep, _⟩ := C10_side_to_move
      { ChessBoardWidget.blank with m_playing_colour := Colour.BLACK }
      "8/8/8/8/8/8/8/8 - KQkq - 0 4".toList (by decide)
    obtain ⟨hc, hh⟩ := hkeep (by decide) (by decide)
    exact ⟨w2, hrun, hc, by rw [hh]; decide⟩⟩

/-! ## The move-sequence label -/

theorem UpdateLineInfo.chain_length (s k : Nat) (pv : List QString) :
    (MainWindow.UpdateLineInfo.chain s k pv).length = pv.length := by
  induction pv generalizing k with
  | nil => rfl
  | cons mv rest ih => simp only [MainWindow.UpdateLineInfo.chain, List.length_cons, ih]

theorem moveNumber_cast (h : Nat) : (1 : Int) + (h : Int) / 2 = ((1 + h / 2 : Nat) : Int) := by
  omega

theorem UpdateLineInfo.chain_item (s k : Nat) (pv : List QString) (i : Nat) (mv : QString)
    (h : pv[i]? = some mv) :
    (MainWindow.UpdateLineInfo.chain s k pv)[i]? = some
      (if ((s + (k + i)) % 4294967296) % 2 = 0 then
        QString.number ((1 + ((s + (k + i)) % 4294967296) / 2 : Nat) : Int) ++ ". ".toList ++ mv
       else if k + i = 0 then
        QString.number ((1 + ((s + (k + i)) % 4294967296) / 2 : Nat) : Int) ++ "... ".toList ++ mv
       else mv) := by
  induction pv generalizing k i with
  | nil => simp at h
  | cons x rest ih =>
    cases i with
    | zero =>
      simp only [List.getElem?_cons_zero, Option.some.injEq] at h
      subst h
      simp only [MainWindow.UpdateLineInfo.chain, List.getElem?_cons_zero, Nat.add_zero,
        moveNumber_cast]
    | succ i =>
      simp only [List.getElem?_cons_succ] at h
      have := ih (k + 1) i h
      simp only [MainWindow.UpdateLineInfo.chain, List.getElem?_cons_succ]
      rw [this]
      have e : k + 1 + i = k + (i + 1) := by omega
      rw [e]

theorem UpdateLineInfo.text_eq (fmt : Int → QString) (s : Nat) (colour : Colour)
    (info : UCIEngine.DepthInfo) :
    MainWindow.UpdateLineInfo.text fmt s colour info =
      MainWindow.UpdateLineInfo.scoreLabel fmt colour info ++ " ".toList ++
        joinWith ' ' (MainWindow.UpdateLineInfo.chain s 0 info.pv) ++ "<br>".toList := by
  unfold MainWindow.UpdateLineInfo.text MainWindow.UpdateLineInfo.scoreLabel
  rfl

/-- C11 (as amended): the text `UpdateLineInfo` appends for a line is its score label,
a space, the move-sequence label and `<br>`; for every start half-move `s` and principal
variation `pv` the move-sequence label is the space-joined list with one item per ply
whose `i`-th item, with `h = (s + i) mod 2^32`, is `N. pv[i]` with `N = 1 + h/2` when `h`
is even, `N... pv[i]` when `h` is odd and `i = 0`, and `pv[i]` alone when `h` is odd and
`i > 0`; for every ply with `s + i < 2^32` (all of them when `s + len(pv) <= 2^32`) the
same holds with `s + i` itself; `s = 1`, `pv = [e7e5, g1f3]` gives `1... e7e5 2. g1f3`,
and `s = 2^32 - 1` gives `2147483648... e7e5 1. g1f3`. -/
theorem C11_move_sequence_label (fmt : Int → QString) (s : Nat) (colour : Colour)
    (info : UCIEngine.DepthInfo) :
    MainWindow.UpdateLineInfo.text fmt s colour info =
      MainWindow.UpdateLineInfo.scoreLabel fmt colour info ++ " ".toList ++
        joinWith ' ' (MainWindow.UpdateLineInfo.chain s 0 info.pv) ++ "<br>".toList ∧
    (MainWindow.UpdateLineInfo.chain s 0 info.pv).length = info.pv.length ∧
    (∀ i mv, info.pv[i]? = some mv →
      (MainWindow.UpdateLineInfo.chain s 0 info.pv)[i]? = some
        (if ((s + i) % 4294967296) % 2 = 0 then
          QString.number ((1 + ((s + i) % 4294967296) / 2 : Nat) : Int) ++ ". ".toList ++ mv
         else if i = 0 then
          QString.number ((1 + ((s + i) % 4294967296) / 2 : Nat) : Int) ++ "... ".toList ++ mv
         else mv)) ∧
    (∀ i mv, info.pv[i]? = some mv → s + i < 4294967296 →
      (MainWindow.UpdateLineInfo.chain s 0 info.pv)[i]? = some
        (if (s + i) % 2 = 0 then QString.number ((1 + (s + i) / 2 : Nat) : Int) ++ ". ".toList ++ mv
         else if i = 0 then QString.number ((1 + (s + i) / 2 : Nat) : Int) ++ "... ".toList ++ mv
         else mv)) ∧
    (s + info.pv.length ≤ 4294967296 → ∀ i mv, info.pv[i]? = some mv →
      (MainWindow.UpdateLineInfo.chain s 0 info.pv)[i]? = some
        (if (s + i) % 2 = 0 then QString.number ((1 + (s + i) / 2 : Nat) : Int) ++ ". ".toList ++ mv
         else if i = 0 then QString.number ((1 + (s + i) / 2 : Nat) : Int) ++ "... ".toList ++ mv
         else mv)) ∧
    joinWith ' ' (MainWindow.UpdateLineInfo.chain 1 0 ["e7e5".toList, "g1f3".toList]) =
      "1... e7e5 2. g1f3".toList ∧
    joinWith ' ' (MainWindow.UpdateLineInfo.chain 4294967295 0 ["e7e5".toList, "g1f3".toList]) =
      "2147483648... e7e5 1. g1f3".toList := by
  have hmodular : ∀ i mv, info.pv[i]? = some mv →
      (MainWindow.UpdateLineInfo.chain s 0 info.pv)[i]? = some
        (if ((s + i) % 4294967296) % 2 = 0 then
          QString.number ((1 + ((s + i) % 4294967296) / 2 : Nat) : Int) ++ ". ".toList ++ mv
         else if i = 0 then
          QString.number ((1 + ((s + i) % 4294967296) / 2 : Nat) : Int) ++ "... ".toList ++ mv
         else mv) := by
    intro i mv hmv
    have hitem := UpdateLineInfo.chain_item s 0 info.pv i mv hmv
    simp only [Nat.zero_add] at hitem
    exact hitem
  have hplain : ∀ i mv, info.pv[i]? = some mv → s + i < 4294967296 →
      (MainWindow.UpdateLineInfo.chain s 0 info.pv)[i]? = some
        (if (s + i) % 2 = 0 then
          QString.number ((1 + (s + i) / 2 : Nat) : Int) ++ ". ".toList ++ mv
         else if i = 0 then
          QString.number ((1 + (s + i) / 2 : Nat) : Int) ++ "... ".toList ++ mv
         else mv) := by
    intro i mv hmv hlt
    have hitem := hmodular i mv hmv
    rw [Nat.mod_eq_of_lt hlt] at hitem
    exact hitem
  refine ⟨UpdateLineInfo.text_eq fmt s colour info, UpdateLineInfo.chain_length s 0 info.pv,
    hmodular, hplain, ?_, by decide, by decide⟩
  intro hs i mv hmv
  have hi : i < info.pv.length := by
    by_contra hc
    rw [List.getElem?_eq_none (by omega)] at hmv
    exact Option.noConfusion hmv
  exact hplain i mv hmv (by omega)

theorem C11_move_sequence_label_witness :
    MainWindow.UpdateLineInfo.text sampleSignedScore 1 Colour.BLACK sampleTwoPlies =
      "<b>[-10]</b> 1... e7e5 2. g1f3<br>".toList ∧
    (1 + sampleTwoPlies.pv.length ≤ 4294967296) ∧
    (MainWindow.UpdateLineInfo.chain 1 0 sampleTwoPlies.pv)[1]? = some "2. g1f3".toList ∧
    (MainWindow.UpdateLineInfo.chain 4294967295 0 sampleTwoPlies.pv)[0]? =
      some "2147483648... e7e5".toList ∧
    (MainWindow.UpdateLineInfo.chain 4294967295 0 sampleTwoPlies.pv)[1]? =
      some "1. g1f3".toList :=
  ⟨((C11_move_sequence_label sampleSignedScore 1 Colour.BLACK sampleTwoPlies).1).trans
      (by decide),
    by decide,
    ((C11_move_sequence_label sampleSignedScore 1 Colour.BLACK sampleTwoPlies).2.2.2.2.1
      (by decide) 1 "g1f3".toList (by decide)).trans (by decide),
    ((C11_move_sequence_label sampleSignedScore 4294967295 Colour.BLACK
      sampleTwoPlies).2.2.2.1 0 "e7e5".toList (by decide) (by decide)).trans (by decide),
    ((C11_move_sequence_label sampleSignedScore 4294967295 Colour.BLACK
      sampleTwoPlies).2.2.1 1 "g1f3".toList (by decide)).trans (by decide)⟩

/-- C11, the claim as stated fails: with start half-move `2^32 - 1` (the position
`8/8/8/8/8/8/8/8 b - - 0 2147483648`) the second ply has `s + i = 2^32`, and the label
reads `1. g1f3`, not `2147483649. g1f3`. -/
theorem C11_counterexample :
    (MainWindow.SetPosition (MainWindow.SetNumLines MainWindow.fresh 1)
        "8/8/8/8/8/8/8/8 b - - 0 2147483648".toList).map
      (fun r => (r.2, r.1.m_start_half_moves)) = some (true, 4294967295) ∧
    ((MainWindow.SetPosition (MainWindow.SetNumLines MainWindow.fresh 1)
        "8/8/8/8/8/8/8/8 b - - 0 2147483648".toList).bind
      (fun r => MainWindow.OnDepthInfoAvailable sampleSignedScore r.1 sampleTwoPlies)).map
      (fun st => st.teLines) =
      some ["<b>[-10]</b> 2147483648... e7e5 1. g1f3<br>".toList] ∧
    joinWith ' ' (MainWindow.UpdateLineInfo.chain 4294967295 0 sampleTwoPlies.pv) =
      "2147483648... e7e5 1. g1f3".toList ∧
    (1 + (4294967295 + 1) / 2 : Nat) = 2147483649 ∧
    "2147483648... e7e5 1. g1f3".toList ≠ "2147483648... e7e5 2147483649. g1f3".toList := by
  decide

/-! ## The score label of a mate line -/

theorem UpdateLineInfo.mate_label (fmt : Int → QString) (colour : Colour)
    (info : UCIEngine.DepthInfo) (hm : info.mate_counter = true) :
    MainWindow.UpdateLineInfo.scoreLabel fmt colour info =
      "<b>[".toList ++
        (if MainWindow.UpdateLineInfo.score colour info ≥ 0 then "M".toList else "-M".toList) ++
        QString.number info.score ++ "]</b>".toList ∧
    MainWindow.UpdateLineInfo.score colour info =
      (if colour = Colour.BLACK then -info.score else info.score) ∧
    (info.score < 0 → QString.number info.score = '-' :: Nat.toDigits 10 info.score.natAbs) ∧
    (0 ≤ info.score → QString.number info.score = Nat.toDigits 10 info.score.natAbs) := by
  refine ⟨?_, ?_, ?_, ?_⟩
  · unfold MainWindow.UpdateLineInfo.scoreLabel
    simp only [hm, Bool.not_true, Bool.false_eq_true, if_false]
  · unfold MainWindow.UpdateLineInfo.score
    split <;> simp
  · intro h
    unfold QString.number
    rw [if_pos h]
  · intro h
    unfold QString.number
    rw [if_neg (by omega)]
    congr 1
    omega

theorem UpdateLineInfo.loop_keeps_board (fmt : Int → QString) (n i : Nat) (st st2 : MainWindow)
    (hi : 1 ≤ i) (h : MainWindow.UpdateLineInfo.loop fmt n i st = some st2) :
    st2.m_board = st.m_board := by
  induction n generalizing i st with
  | zero =>
    simp only [MainWindow.UpdateLineInfo.loop, Option.some.injEq] at h
    rw [← h]
  | succ n ih =>
    rw [MainWindow.UpdateLineInfo.loop] at h
    split at h
    · exact Option.noConfusion h
    · have h0 : ¬ (i = 0) := by omega
      simp only [h0, if_false] at h
      have hrest := ih (i + 1) _ (by omega) h
      exact hrest

theorem UpdateLineInfo.first_line_score (fmt : Int → QString) (st st2 : MainWindow)
    (x : UCIEngine.DepthInfo) (hn : 1 ≤ st.m_num_received_lines)
    (hx : st.m_depth_infos[0]? = some x) (h : MainWindow.UpdateLineInfo fmt st = some st2) :
    st2.m_board.m_score = MainWindow.UpdateLineInfo.score st.m_board.m_playing_colour x ∧
    st2.m_board.m_is_mate = x.mate_counter := by
  unfold MainWindow.UpdateLineInfo at h
  obtain ⟨n, hn2⟩ : ∃ n, st.m_num_received_lines = n + 1 := ⟨st.m_num_received_lines - 1, by omega⟩
  rw [hn2, MainWindow.UpdateLineInfo.loop] at h
  simp only [hx, if_true] at h
  have := UpdateLineInfo.loop_keeps_board fmt n 1 _ st2 (Nat.le_refl 1) h
  rw [this]
  exact ⟨rfl, rfl⟩

/-- C12, the failing input: for the mate line with raw score -3 the label is built from
the prefix for the flipped score and the signed decimal of the raw score, `-M-3` with
WHITE to move and `M-3` with BLACK to move, not `-M3` and `M3`; the flipped score and
the mate flag are what the first line passes to `SetScore`. -/
theorem C12_mate_label_keeps_sign (fmt : Int → QString) :
    sampleMateLine.mate_counter = true ∧ sampleMateLine.score = -3 ∧
    MainWindow.UpdateLineInfo.scoreLabel fmt Colour.WHITE sampleMateLine =
      "<b>[-M-3]</b>".toList ∧
    MainWindow.UpdateLineInfo.scoreLabel fmt Colour.BLACK sampleMateLine =
      "<b>[M-3]</b>".toList ∧
    (MainWindow.OnDepthInfoAvailable fmt (MainWindow.SetNumLines MainWindow.fresh 1)
        sampleMateLine).map
      (fun st => (st.teLines, st.m_board.m_score, st.m_board.m_is_mate)) =
      some (["<b>[-M-3]</b> 1. e2e4<br>".toList], -3, true) ∧
    (MainWindow.OnDepthInfoAvailable fmt
        (MainWindow.SetNumLines
          { MainWindow.fresh with
            m_board := MainWindow.fresh.m_board.SetPlayingColour Colour.BLACK } 1)
        sampleMateLine).map
      (fun st => (st.teLines, st.m_board.m_score, st.m_board.m_is_mate)) =
      some (["<b>[M-3]</b> 1. e2e4<br>".toList], 3, true) :=
  ⟨rfl, rfl, rfl, rfl, rfl, rfl⟩

/-! ## Runs of the aggregator -/

theorem OnDepthInfoAvailable_runs (fmt : Int → QString) (st : MainWindow)
    (info : UCIEngine.DepthInfo) (h1 : 1 ≤ info.line_id % 4294967296)
    (h2 : info.line_id % 4294967296 ≤ st.m_depth_infos.length) :
    MainWindow.OnDepthInfoAvailable fmt st info =
      MainWindow.UpdateLineInfo fmt (MainWindow.OnDepthInfoAvailable.stored st info) ∧
    (MainWindow.OnDepthInfoAvailable.stored st info).m_num_received_lines ≤
      (MainWindow.OnDepthInfoAvailable.stored st info).m_depth_infos.length ∧
    ∃ st2, MainWindow.UpdateLineInfo fmt (MainWindow.OnDepthInfoAvailable.stored st info) =
      some st2 := by
  have hidx : (info.line_id % 4294967296 + 4294967295) % 4294967296 =
      info.line_id % 4294967296 - 1 := by omega
  have hle : (MainWindow.OnDepthInfoAvailable.stored st info).m_num_received_lines ≤
      (MainWindow.OnDepthInfoAvailable.stored st info).m_depth_infos.length := by
    simp only [MainWindow.OnDepthInfoAvailable.stored, List.length_set]
    exact h2
  refine ⟨?_, hle, ?_⟩
  · unfold MainWindow.OnDepthInfoAvailable
    simp only
    rw [if_neg (by omega), if_pos (by omega)]
    rfl
  · obtain ⟨st2, hrun, _⟩ := UpdateLineInfo.loop_spec fmt
      (MainWindow.OnDepthInfoAvailable.stored st info).m_num_received_lines 0
      { MainWindow.OnDepthInfoAvailable.stored st info with teLines := [] }
      (by simpa using hle)
    exact ⟨st2, hrun⟩

theorem perform_total (fmt : Int → QString) (st : MainWindow) (a : MainWindow.Action)
    (ha : ∀ info, a = MainWindow.Action.OnDepthInfoAvailable info →
      1 ≤ info.line_id % 4294967296) :
    ∃ st2, MainWindow.perform fmt st a = some st2 := by
  cases a with
  | SetNumLines n => exact ⟨_, rfl⟩
  | OnDepthInfoAvailable info =>
    have h1 := ha info rfl
    by_cases h2 : info.line_id % 4294967296 ≤ st.m_depth_infos.length
    · obtain ⟨e, _, st2, hst2⟩ := OnDepthInfoAvailable_runs fmt st info h1 h2
      exact ⟨st2, by rw [MainWindow.perform, e, hst2]⟩
    · refine ⟨st, ?_⟩
      unfold MainWindow.perform MainWindow.OnDepthInfoAvailable
      simp only
      rw [if_pos (by omega)]

theorem run_total (fmt : Int → QString) (st : MainWindow) (actions : List MainWindow.Action)
    (hids : ∀ info, MainWindow.Action.OnDepthInfoAvailable info ∈ actions →
      1 ≤ info.line_id % 4294967296) :
    ∃ st2, MainWindow.run fmt st actions = some st2 := by
  induction actions generalizing st with
  | nil => exact ⟨st, rfl⟩
  | cons a rest ih =>
    obtain ⟨st1, h1⟩ := perform_total fmt st a
      (fun info ha => hids info (by rw [ha]; exact List.mem_cons_self _ _))
    obtain ⟨st2, h2⟩ := ih st1 (fun info hm => hids info (List.mem_cons_of_mem _ hm))
    exact ⟨st2, by rw [MainWindow.run, h1]; exact h2⟩

/-- C13: from the state `Init` leaves, along every sequence of `SetNumLines` calls and
updates whose `line_id` is at least 1, no call indexes the slot vector outside its
bounds; each update is either dropped (its `line_id` exceeds the number of slots, and
`UpdateLineInfo` does not run) or `UpdateLineInfo` runs on a state whose
`m_num_received_lines` is at most the number of slots, so that every slot index below
`m_num_received_lines` holds a slot, and it completes. -/
theorem C13_UpdateLineInfo_in_bounds (fmt : Int → QString) (st0 : MainWindow)
    (actions : List MainWindow.Action)
    (hids : ∀ info, MainWindow.Action.OnDepthInfoAvailable info ∈ actions →
      1 ≤ info.line_id % 4294967296) :
    (∃ st, MainWindow.run fmt (MainWindow.Init st0) actions = some st) ∧
    ∀ pre info post, actions = pre ++ MainWindow.Action.OnDepthInfoAvailable info :: post →
      ∃ st, MainWindow.run fmt (MainWindow.Init st0) pre = some st ∧
        ((st.m_depth_infos.length < info.line_id % 4294967296 ∧
            MainWindow.OnDepthInfoAvailable fmt st info = some st) ∨
         (MainWindow.OnDepthInfoAvailable fmt st info =
            MainWindow.UpdateLineInfo fmt (MainWindow.OnDepthInfoAvailable.stored st info) ∧
          (MainWindow.OnDepthInfoAvailable.stored st info).m_num_received_lines ≤
            (MainWindow.OnDepthInfoAvailable.stored st info).m_depth_infos.length ∧
          (∀ i, i < (MainWindow.OnDepthInfoAvailable.stored st info).m_num_received_lines →
            ∃ slot, (MainWindow.OnDepthInfoAvailable.stored st info).m_depth_infos[i]? =
              some slot) ∧
          ∃ st2, MainWindow.UpdateLineInfo fmt
            (MainWindow.OnDepthInfoAvailable.stored st info) = some st2)) := by
  refine ⟨run_total fmt _ actions hids, ?_⟩
  intro pre info post hsplit
  have h1 : 1 ≤ info.line_id % 4294967296 := hids info (by rw [hsplit]; simp)
  obtain ⟨st, hst⟩ := run_total fmt (MainWindow.Init st0) pre
    (fun x hx => hids x (by rw [hsplit]; exact List.mem_append_left _ hx))
  refine ⟨st, hst, ?_⟩
  by_cases h2 : info.line_id % 4294967296 ≤ st.m_depth_infos.length
  · right
    obtain ⟨e, hle, hsome⟩ := OnDepthInfoAvailable_runs fmt st info h1 h2
    refine ⟨e, hle, ?_, hsome⟩
    intro i hi
    exact ⟨_, List.getElem?_eq_getElem (by omega)⟩
  · left
    refine ⟨by omega, ?_⟩
    unfold MainWindow.OnDepthInfoAvailable
    simp only
    rw [if_pos (by omega)]

theorem C13_UpdateLineInfo_in_bounds_witness :
    (∀ info, MainWindow.Action.OnDepthInfoAvailable info ∈
        [MainWindow.Action.SetNumLines 3, MainWindow.Action.OnDepthInfoAvailable sampleLine3,
         MainWindow.Action.SetNumLines 1, MainWindow.Action.OnDepthInfoAvailable sampleLine1] →
      1 ≤ info.line_id % 4294967296) ∧
    (MainWindow.run sampleSignedScore (MainWindow.Init MainWindow.fresh)
        [MainWindow.Action.SetNumLines 3, MainWindow.Action.OnDepthInfoAvailable sampleLine3,
         MainWindow.Action.SetNumLines 1]).map
      (fun st => (st.m_num_received_lines, st.m_depth_infos.length)) = some (3, 1) ∧
    ∃ st, MainWindow.run sampleSignedScore (MainWindow.Init MainWindow.fresh)
        [MainWindow.Action.SetNumLines 3, MainWindow.Action.OnDepthInfoAvailable sampleLine3,
         MainWindow.Action.SetNumLines 1, MainWindow.Action.OnDepthInfoAvailable sampleLine1] =
      some st :=
  have hids : ∀ info, MainWindow.Action.OnDepthInfoAvailable info ∈
      [MainWindow.Action.SetNumLines 3, MainWindow.Action.OnDepthInfoAvailable sampleLine3,
       MainWindow.Action.SetNumLines 1, MainWindow.Action.OnDepthInfoAvailable sampleLine1] →
      1 ≤ info.line_id % 4294967296 := by
    intro info hmem
    simp only [List.mem_cons, List.mem_singleton, List.not_mem_nil, or_false,
      MainWindow.Action.OnDepthInfoAvailable.injEq, reduceCtorEq, false_or] at hmem
    rcases hmem with h | h <;> subst h <;> decide
  ⟨hids, by decide,
    (C13_UpdateLineInfo_in_bounds sampleSignedScore MainWindow.fresh _ hids).1⟩
